import Mathlib

/-!
Shallow embedding of the `projectvis` BSP engine (`bsp.py`, `vismain.py`).

Conventions of the embedding:

* Machine integers of the source are modelled as `Int`; the floating-point
  coordinates used by `segment_collision` and the geometry helpers are
  modelled as `ℚ` (the algorithms only use field operations and
  comparisons).
* Python objects are identified by their position in the tree: a leaf or
  node handle is a `BPath` (the list of left/right turns from the root).
  Object identity (`is`, membership of leaves in Python sets) becomes path
  equality.
* Python `assert` failures and attribute errors on invalid handles are
  modelled by `Option`, with `none` for a raised exception.
* The transient ids (`BSPElement.id` from `id(self)`, the global
  `BSPLeaf._numLeaves` counter feeding fresh `leafID`s) exist only to be
  unique until serialization renumbers them; the embedding does not thread
  the global counter and gives fresh leaves `leafID = 0`.  No claim depends
  on a transient id value.
-/

/-- Split orientation of a `BSPNode`: `HORIZ = 0`, `VERTI = 1` in the source. -/
inductive Orient where
  | horiz
  | verti
deriving DecidableEq, Repr

/-- A child direction inside the tree (`left` / `right` attribute of a node). -/
inductive Dir where
  | left
  | right
deriving DecidableEq, Repr

/-- A handle to an element: the list of turns leading to it from the head. -/
abbrev BPath := List Dir

/-- Rectangle bounds `(left, top, right, bottom)` of a `BSPElement`. -/
structure Bounds where
  left : Int
  top : Int
  right : Int
  bottom : Int
deriving DecidableEq, Repr

/-- A `BSPElement`: either a `BSPLeaf` (with its `solid` flag and `leafID`)
or a `BSPNode` (with orientation, partition and two children). -/
inductive Elem where
  | leaf (bounds : Bounds) (solid : Bool) (leafID : Int)
  | node (bounds : Bounds) (orient : Orient) (part : Int) (lc rc : Elem)
deriving DecidableEq, Repr

/-- The `bounds` attribute common to nodes and leaves. -/
def Elem.boundsOf : Elem → Bounds
  | .leaf b _ _ => b
  | .node b _ _ _ _ => b

/-- Whether an element is a solid leaf (`leaf.solid`; nodes are not leaves). -/
def Elem.isSolid : Elem → Bool
  | .leaf _ s _ => s
  | .node _ _ _ _ _ => false

/-- Whether an element is a leaf. -/
def Elem.isLeafE : Elem → Bool
  | .leaf _ _ _ => true
  | .node _ _ _ _ _ => false

/-- A `BSPPortal`: its two leaves (as handles), its orientation and the two
endpoints of the shared boundary (`start` and `end`; the latter renamed to
`endP` since `end` is reserved in Lean). -/
structure Portal where
  leaf1 : BPath
  leaf2 : BPath
  orient : Orient
  start : Int × Int
  endP : Int × Int
deriving DecidableEq, Repr

/-- A `BSPTree`: world dimensions, the owned `head` element, and the portal
set (a list; the Python set only ever receives distinct freshly-created
portals, so the length is the set's size). -/
structure BSPTree where
  maxWidth : Int
  maxHeight : Int
  head : Elem
  portals : List Portal
deriving DecidableEq, Repr

/-- `BSPLeaf.__init__`: a freshly constructed leaf is SOLID (`self.solid =
True`); the transient `leafID` is modelled as `0` (see module comment). -/
def freshLeaf (b : Bounds) : Elem := .leaf b true 0

/-- `BSPTree.__init__(maxWidth, maxHeight)`: records the dimensions and
creates a single fresh (solid) leaf covering `(0,0,maxWidth,maxHeight)`.
The source performs no validation of the dimensions. -/
def BSPTree.new (maxWidth maxHeight : Int) : BSPTree :=
  { maxWidth := maxWidth
    maxHeight := maxHeight
    head := freshLeaf ⟨0, 0, maxWidth, maxHeight⟩
    portals := [] }

/-- Follow a path from an element downwards; `none` when the path runs into
a leaf before being exhausted (an invalid handle). -/
def subtreeAt : Elem → BPath → Option Elem
  | e, [] => some e
  | .leaf _ _ _, _ :: _ => none
  | .node _ _ _ lc _, .left :: p => subtreeAt lc p
  | .node _ _ _ _ rc, .right :: p => subtreeAt rc p

/-- Replace the subtree at a path (the effect of assigning to the parent's
`left`/`right` attribute, or to `self.head` for the empty path). An invalid
path leaves the element unchanged. -/
def replaceAt : Elem → BPath → Elem → Elem
  | _, [], x => x
  | .leaf b s i, _ :: _, _ => .leaf b s i
  | .node b o pa lc rc, .left :: p, x => .node b o pa (replaceAt lc p x) rc
  | .node b o pa lc rc, .right :: p, x => .node b o pa lc (replaceAt rc p x)

/-- A path is a valid leaf handle when it leads to a leaf. -/
def isLeafPath (e : Elem) (p : BPath) : Bool :=
  match subtreeAt e p with
  | some (.leaf _ _ _) => true
  | _ => false

/-- `BSPTree.merge_leaf(leaf)`: if the leaf has no parent, return without
changing anything; if the parent is the head, replace the head by a fresh
leaf with the world bounds; otherwise replace the parent (inside its own
parent) by a fresh leaf with the parent's bounds. -/
def mergeLeaf (tr : BSPTree) (p : BPath) : Option BSPTree :=
  if p = [] then
    some tr
  else
    let q := p.dropLast
    if q = [] then
      some { tr with head := freshLeaf ⟨0, 0, tr.maxWidth, tr.maxHeight⟩ }
    else
      match subtreeAt tr.head q with
      | some parentE =>
          some { tr with head := replaceAt tr.head q (freshLeaf parentE.boundsOf) }
      | none => none

/-- `BSPNode.__init__`: a fresh node computes its children's bounds from the
partition and creates two fresh (solid) leaves. -/
def mkNode (b : Bounds) (o : Orient) (pa : Int) : Elem :=
  match o with
  | .verti =>
      .node b o pa (freshLeaf ⟨b.left, b.top, pa, b.bottom⟩)
        (freshLeaf ⟨pa, b.top, b.right, b.bottom⟩)
  | .horiz =>
      .node b o pa (freshLeaf ⟨b.left, b.top, b.right, pa⟩)
        (freshLeaf ⟨b.left, pa, b.right, b.bottom⟩)

/-- The partition range check asserted by `divide_leaf` in its non-root
branch: `left < partition < right` for Vertical, `top < partition < bottom`
for Horizontal. -/
def inRange (o : Orient) (b : Bounds) (pa : Int) : Bool :=
  match o with
  | .verti => decide (b.left < pa) && decide (pa < b.right)
  | .horiz => decide (b.top < pa) && decide (pa < b.bottom)

/-- `BSPTree.divide_leaf(leaf, orientation, partition)`: a root leaf is
replaced by a fresh node with NO range check on the partition; a non-root
leaf is replaced only after the range assertions pass (`none` models the
`AssertionError`). -/
def divideLeaf (tr : BSPTree) (p : BPath) (o : Orient) (pa : Int) : Option BSPTree :=
  match subtreeAt tr.head p with
  | some (.leaf b _ _) =>
      if p = [] then
        some { tr with head := mkNode b o pa }
      else if inRange o b pa then
        some { tr with head := replaceAt tr.head p (mkNode b o pa) }
      else
        none
  | _ => none

/-- The descent loop of `BSPTree.leaf_from_coords(x, y)`: Horizontal node
goes right when `y >= partition`, Vertical node goes right when
`x >= partition`. -/
def leafFromCoordsGo (x y : Int) : Elem → Elem
  | .leaf b s i => .leaf b s i
  | .node _ o pa lc rc =>
      match o with
      | .horiz => if y ≥ pa then leafFromCoordsGo x y rc else leafFromCoordsGo x y lc
      | .verti => if x ≥ pa then leafFromCoordsGo x y rc else leafFromCoordsGo x y lc

/-- `BSPTree.leaf_from_coords`. -/
def leafFromCoords (tr : BSPTree) (x y : Int) : Elem :=
  leafFromCoordsGo x y tr.head

/-- Well-formedness of the stored bounds: each node's partition lies
strictly between its bounds on the split axis and the children carry the
bounds the constructor `BSPNode.__init__` would compute. Maintained by all
constructors in the source; deserialization can break it. -/
def wfElem : Elem → Bool
  | .leaf _ _ _ => true
  | .node b o pa lc rc =>
      (match o with
       | .verti =>
           decide (b.left < pa) && decide (pa < b.right) &&
           decide (lc.boundsOf = ⟨b.left, b.top, pa, b.bottom⟩) &&
           decide (rc.boundsOf = ⟨pa, b.top, b.right, b.bottom⟩)
       | .horiz =>
           decide (b.top < pa) && decide (pa < b.bottom) &&
           decide (lc.boundsOf = ⟨b.left, b.top, b.right, pa⟩) &&
           decide (rc.boundsOf = ⟨b.left, pa, b.right, b.bottom⟩)) &&
      wfElem lc && wfElem rc

/-- A 2-D point with rational coordinates. -/
abbrev Pt := ℚ × ℚ

/-! ## Serialization bridge (`BSPTree.to_vdf` / `BSPTree.from_vdf`)

The text encoding itself (`format_vdf`/`parse_vdf` and Python's
`str`/`int`) lives outside this repository; the embedding models the
key/value tree at the level of the integer and boolean values it carries.
Element ids are the enumeration indices `to_vdf` assigns, which coincide
with positions in the ordered `elements` mapping, so the mapping is a list
of records indexed by position. -/

/-- The dictionary form of one element as built by `to_dict`: a leaf record
carries `leafID` and `solid`, a node record carries orientation, partition
and the ids of its two children. -/
inductive ElemRec where
  | leafR (bounds : Bounds) (leafID : Int) (solid : Bool)
  | nodeR (bounds : Bounds) (orient : Orient) (part : Int) (leftId rightId : Nat)
deriving DecidableEq, Repr

/-- Number of elements of a subtree (`iter_elements` yields each exactly
once). -/
def Elem.size : Elem → Nat
  | .leaf _ _ _ => 1
  | .node _ _ _ lc rc => 1 + rc.size + lc.size

/-- `iter_elements` enumeration as a flat record list: the stack-based
traversal yields an element, then its whole right subtree, then its whole
left subtree. `pos` is the index of the subtree's own record in the full
list, so the child ids stored in a node record are absolute positions. -/
def flattenFrom (pos : Nat) : Elem → List ElemRec
  | .leaf b s i => [.leafR b i s]
  | .node b o pa lc rc =>
      .nodeR b o pa (pos + 1 + rc.size) (pos + 1) ::
        (flattenFrom (pos + 1) rc ++ flattenFrom (pos + 1 + rc.size) lc)

/-- The leafID renumbering pass of `to_vdf`: every solid leaf gets `-1`,
and the visleaves get `0, 1, 2, …` in `iter_visleaves` order (which is
`iter_elements` order restricted to non-solid leaves). Returns the
renumbered subtree and the next fresh id. -/
def renumberFrom (n : Int) : Elem → Elem × Int
  | .leaf b s _ => if s then (.leaf b s (-1), n) else (.leaf b s n, n + 1)
  | .node b o pa lc rc =>
      let pr := renumberFrom n rc
      let pl := renumberFrom pr.2 lc
      (.node b o pa pl.1 pr.1, pl.2)

/-- A tree with its leafIDs renumbered as `to_vdf` leaves them. -/
def renumberTree (tr : BSPTree) : BSPTree :=
  { tr with head := (renumberFrom 0 tr.head).1 }

/-- The key/value tree emitted by `to_vdf`: `maxWidth`, `maxHeight` and the
ordered `elements` mapping. -/
structure KV where
  maxWidth : Int
  maxHeight : Int
  elements : List ElemRec
deriving DecidableEq, Repr

/-- `BSPTree.to_vdf` up to the external string encoding: renumber leafIDs,
then emit every element record in `iter_elements` order with child
references replaced by the enumeration indices. -/
def toKV (tr : BSPTree) : KV :=
  ⟨tr.maxWidth, tr.maxHeight, flattenFrom 0 (renumberFrom 0 tr.head).1⟩

/-- Position lookup in a record list (`elements[index]`). -/
def getAt : List ElemRec → Nat → Option ElemRec
  | [], _ => none
  | x :: _, 0 => some x
  | _ :: xs, n + 1 => getAt xs n

/-- Rebuild the element graph reachable from position `i`, as `from_vdf`'s
two passes produce it for tree-shaped data. `fuel` bounds the recursion
depth; `from_vdf` itself would accept cyclic inputs (it links objects by
mutation), but such inputs are malformed and never produced by `to_vdf`. -/
def resolveElems (a : List ElemRec) : Nat → Nat → Option Elem
  | 0, _ => none
  | fuel + 1, i =>
      match getAt a i with
      | some (.leafR b lid s) => some (.leaf b s lid)
      | some (.nodeR b o pa li ri) =>
          match resolveElems a fuel li, resolveElems a fuel ri with
          | some lc, some rc => some (.node b o pa lc rc)
          | _, _ => none
      | none => none

/-- `BSPTree.from_vdf` up to the external string decoding: instantiate and
re-link all elements, and take the first element (position 0) as the head.
The reconstructed tree starts with an empty portal set. -/
def fromKV (kv : KV) : Option BSPTree :=
  match resolveElems kv.elements kv.elements.length 0 with
  | some h => some ⟨kv.maxWidth, kv.maxHeight, h, []⟩
  | none => none

/-! ## Segment collision (`BSPTree.segment_collision`) -/

/-- The entry-point nudge of `segment_collision`: shift the start point by
`(-1, 0)` when the segment runs leftwards and by `(0, -1)` when it runs
upwards. -/
def nudge (s e : Pt) : Pt :=
  let s1 : Pt := if e.1 < s.1 then (s.1 - 1, s.2) else s
  if e.2 < s1.2 then (s1.1, s1.2 - 1) else s1

/-- The recursive `node_seg_collision` helper: a leaf collides iff solid;
at a node, recurse on the single side containing both endpoints, or split
the segment at the partition and try the start-side child first. -/
def nodeSegCollision : Elem → Pt → Pt → Option Elem
  | .leaf b s i, _, _ => if s then some (.leaf b s i) else none
  | .node _ o pa lc rc, sp, ep =>
      let c0 : ℚ := match o with | .horiz => sp.2 | .verti => sp.1
      let c1 : ℚ := match o with | .horiz => ep.2 | .verti => ep.1
      if c0 < (pa : ℚ) ∧ c1 < (pa : ℚ) then
        nodeSegCollision lc sp ep
      else if (pa : ℚ) ≤ c0 ∧ (pa : ℚ) ≤ c1 then
        nodeSegCollision rc sp ep
      else
        let split : Pt :=
          match o with
          | .horiz => ((ep.1 - sp.1) * (((pa : ℚ) - sp.2) / (ep.2 - sp.2)) + sp.1, (pa : ℚ))
          | .verti => ((pa : ℚ), (ep.2 - sp.2) * (((pa : ℚ) - sp.1) / (ep.1 - sp.1)) + sp.2)
        if c0 < (pa : ℚ) then
          match nodeSegCollision lc sp split with
          | some res => some res
          | none => nodeSegCollision rc split ep
        else
          match nodeSegCollision rc sp split with
          | some res => some res
          | none => nodeSegCollision lc split ep

/-- `BSPTree.segment_collision(startPos, endPos)`. -/
def segmentCollision (tr : BSPTree) (s e : Pt) : Option Elem :=
  nodeSegCollision tr.head (nudge s e) e

/-- Specification-side description of the same descent: the ordered list of
leaves the (sub)segment passes through, splitting at every straddled
partition and listing the start-side part before the end-side part. -/
def crossedLeaves : Elem → Pt → Pt → List Elem
  | .leaf b s i, _, _ => [.leaf b s i]
  | .node _ o pa lc rc, sp, ep =>
      let c0 : ℚ := match o with | .horiz => sp.2 | .verti => sp.1
      let c1 : ℚ := match o with | .horiz => ep.2 | .verti => ep.1
      if c0 < (pa : ℚ) ∧ c1 < (pa : ℚ) then
        crossedLeaves lc sp ep
      else if (pa : ℚ) ≤ c0 ∧ (pa : ℚ) ≤ c1 then
        crossedLeaves rc sp ep
      else
        let split : Pt :=
          match o with
          | .horiz => ((ep.1 - sp.1) * (((pa : ℚ) - sp.2) / (ep.2 - sp.2)) + sp.1, (pa : ℚ))
          | .verti => ((pa : ℚ), (ep.2 - sp.2) * (((pa : ℚ) - sp.1) / (ep.1 - sp.1)) + sp.2)
        if c0 < (pa : ℚ) then
          crossedLeaves lc sp split ++ crossedLeaves rc split ep
        else
          crossedLeaves rc sp split ++ crossedLeaves lc split ep

/-! ## Geometry helpers of `bsp.py` (`segments_intersect`) -/

/-- The inner `orientation(p1, p2, p3)` helper of `segments_intersect`,
transcribed with the arithmetic exactly as written in the source:
`(p3y - p1y) * (p2x - p1x) - (p3y - p1y) * (p2x - p1x)`. -/
def orientation (p1 p2 p3 : Pt) : Int :=
  let res := (p3.2 - p1.2) * (p2.1 - p1.1) - (p3.2 - p1.2) * (p2.1 - p1.1)
  if res > 0 then 1 else if res < 0 then -1 else 0

/-- The inner `point_on_segment(p, segStart, segEnd)` helper: membership of
`p` in the axis-aligned bounding box of the segment. -/
def pointOnSegment (p a b : Pt) : Bool :=
  decide (p.1 ≤ max a.1 b.1) && decide (min a.1 b.1 ≤ p.1) &&
  decide (p.2 ≤ max a.2 b.2) && decide (min a.2 b.2 ≤ p.2)

/-- `segments_intersect(seg1, seg2)`. -/
def segmentsIntersect (s1 s2 : Pt × Pt) : Bool :=
  let o1 := orientation s1.1 s1.2 s2.1
  let o2 := orientation s1.1 s1.2 s2.2
  let o3 := orientation s2.1 s2.2 s1.1
  let o4 := orientation s2.1 s2.2 s1.2
  if o1 ≠ o2 ∧ o3 ≠ o4 then
    true
  else
    (decide (o1 = 0) && pointOnSegment s2.1 s1.1 s1.2) ||
    (decide (o2 = 0) && pointOnSegment s2.2 s1.1 s1.2) ||
    (decide (o3 = 0) && pointOnSegment s1.1 s2.1 s2.2) ||
    (decide (o4 = 0) && pointOnSegment s1.2 s2.1 s2.2)

/-- Membership of a point on a closed segment from `a` to `b`, the
mathematical notion the specification refers to. -/
def ptOnClosedSeg (p a b : Pt) : Prop :=
  ∃ t : ℚ, 0 ≤ t ∧ t ≤ 1 ∧
    p.1 = a.1 + t * (b.1 - a.1) ∧ p.2 = a.2 + t * (b.2 - a.2)

/-! ## Directional neighbor query (`BSPLeaf._iter_directed_neighbors`) -/

/-- The four query directions `('L', 'R', 'T', 'B')`. -/
inductive Dirn where
  | L
  | R
  | T
  | B
deriving DecidableEq, Repr

/-- The ascent stopping test: for direction `'L'` stop at a Vertical parent
approached from its right child, `'R'` Vertical-from-left, `'T'`
Horizontal-from-right, `'B'` Horizontal-from-left. -/
def ascendMatch (d : Dirn) (o : Orient) (s : Dir) : Bool :=
  match d with
  | .L => decide (o = .verti) && decide (s = .right)
  | .R => decide (o = .verti) && decide (s = .left)
  | .T => decide (o = .horiz) && decide (s = .right)
  | .B => decide (o = .horiz) && decide (s = .left)

/-- The upward `while node.parent` loop, processed over the leaf's path
from its deepest step: the argument is the yet-unconsumed reversed path, so
its head is the side from which the current element hangs off its parent.
Returns the common ancestor's path, or `none` when the loop exhausts all
ancestors. -/
def ascendRev (hd : Elem) (d : Dirn) : List Dir → Option BPath
  | [] => none
  | s :: rev =>
      match subtreeAt hd rev.reverse with
      | some (.node _ o _ _ _) =>
          if ascendMatch d o s then some rev.reverse else ascendRev hd d rev
      | _ => ascendRev hd d rev

/-- The common ancestor found by the ascent, for a leaf at path `p`. -/
def findCommonAncestor (hd : Elem) (d : Dirn) (p : BPath) : Option BPath :=
  ascendRev hd d p.reverse

/-- The downward traversal of `_iter_directed_neighbors`: collect the leaf
handles (path and element) reachable from `sub` (at absolute path `base`),
descending only the facing child at a parallel-orientation node and both
children (right subtree first, matching the stack pop order) at a
perpendicular one. -/
def descendCollect (d : Dirn) : Elem → BPath → List (BPath × Elem)
  | .leaf b s i, base => [(base, .leaf b s i)]
  | .node _ o _ lc rc, base =>
      match d, o with
      | .L, .verti => descendCollect .L rc (base ++ [.right])
      | .L, .horiz =>
          descendCollect .L rc (base ++ [.right]) ++ descendCollect .L lc (base ++ [.left])
      | .R, .verti => descendCollect .R lc (base ++ [.left])
      | .R, .horiz =>
          descendCollect .R rc (base ++ [.right]) ++ descendCollect .R lc (base ++ [.left])
      | .T, .horiz => descendCollect .T rc (base ++ [.right])
      | .T, .verti =>
          descendCollect .T rc (base ++ [.right]) ++ descendCollect .T lc (base ++ [.left])
      | .B, .horiz => descendCollect .B lc (base ++ [.left])
      | .B, .verti =>
          descendCollect .B rc (base ++ [.right]) ++ descendCollect .B lc (base ++ [.left])

/-- The boundary filter of step 3: for horizontal directions the candidate
is yielded iff its vertical extent strictly overlaps the target's, for
vertical directions iff its horizontal extent does. -/
def overlapStrict (d : Dirn) (selfB otherB : Bounds) : Bool :=
  match d with
  | .L | .R => !(decide (otherB.bottom ≤ selfB.top) || decide (otherB.top ≥ selfB.bottom))
  | .T | .B => !(decide (otherB.right ≤ selfB.left) || decide (otherB.left ≥ selfB.right))

/-- The child of the common ancestor from which the descent starts:
`commonAncestor.left` for directions L and T, `commonAncestor.right` for R
and B. -/
def entryChild (d : Dirn) : Dir :=
  match d with
  | .L | .T => .left
  | .R | .B => .right

/-- `BSPLeaf._iter_directed_neighbors(direction)` for the leaf at path `p`:
ascend to the common ancestor, descend from its facing child, filter by
strict overlap with the leaf's own bounds. -/
def dirNeighbors (hd : Elem) (p : BPath) (d : Dirn) : List (BPath × Elem) :=
  match subtreeAt hd p with
  | some (.leaf sb _ _) =>
      match findCommonAncestor hd d p with
      | none => []
      | some anc =>
          match subtreeAt hd (anc ++ [entryChild d]) with
          | some sub =>
              (descendCollect d sub (anc ++ [entryChild d])).filter
                (fun pe => overlapStrict d sb pe.2.boundsOf)
          | none => []
  | _ => []

/-- `BSPLeaf.iter_neighbors()`: all four directions chained in the order
`('L', 'T', 'R', 'B')`. -/
def iterNeighbors (hd : Elem) (p : BPath) : List (BPath × Elem) :=
  dirNeighbors hd p .L ++ dirNeighbors hd p .T ++
    dirNeighbors hd p .R ++ dirNeighbors hd p .B

/-- `BSPLeaf.is_left_neighbor_of(other)` and friends: membership of this
leaf (Python object identity, i.e. path equality) in the other leaf's
directed neighbor iterator. -/
def isDirNeighborOf (hd : Elem) (p other : BPath) (d : Dirn) : Bool :=
  (dirNeighbors hd other d).any (fun pe => decide (pe.1 = p))

/-! ## Portal generation (`BSPPortal.__init__`, `BSPTree.generate_portals`) -/

/-- `BSPPortal.__init__(leaf1, leaf2)` for the leaves at paths `p1`, `p2`
with elements `e1`, `e2`: `none` models a failed assertion (a solid leaf,
or no directional neighbor relation between the two leaves in any of the
four tested directions). -/
def mkPortal (hd : Elem) (p1 p2 : BPath) (e1 e2 : Elem) : Option Portal :=
  if e1.isSolid || e2.isSolid then none
  else
    let b1 := e1.boundsOf
    let b2 := e2.boundsOf
    if isDirNeighborOf hd p1 p2 .L then
      some ⟨p1, p2, .verti, (b1.right, max b1.top b2.top), (b1.right, min b1.bottom b2.bottom)⟩
    else if isDirNeighborOf hd p1 p2 .T then
      some ⟨p1, p2, .horiz, (max b1.left b2.left, b1.bottom), (min b1.right b2.right, b1.bottom)⟩
    else if isDirNeighborOf hd p1 p2 .R then
      some ⟨p1, p2, .verti, (b1.left, max b1.top b2.top), (b1.left, min b1.bottom b2.bottom)⟩
    else if isDirNeighborOf hd p1 p2 .B then
      some ⟨p1, p2, .horiz, (max b1.left b2.left, b1.top), (min b1.right b2.right, b1.top)⟩
    else
      none

/-- `iter_visleaves` as a list of handles: the leaves of the subtree in
`iter_elements` order (element, right subtree, left subtree), restricted to
non-solid ones. -/
def visleafPathsFrom (base : BPath) : Elem → List (BPath × Elem)
  | .leaf b s i => if s then [] else [(base, .leaf b s i)]
  | .node _ _ _ lc rc =>
      visleafPathsFrom (base ++ [.right]) rc ++ visleafPathsFrom (base ++ [.left]) lc

/-- The `frozenset({visleaf, neighbor}) in alreadyProcessed` test: the
processed list stores ordered pairs, and the frozenset comparison ignores
the order. -/
def pairSeen (processed : List (BPath × BPath)) (a b : BPath) : Bool :=
  processed.any (fun q =>
    (decide (q.1 = a) && decide (q.2 = b)) || (decide (q.1 = b) && decide (q.2 = a)))

/-- Pointwise update of the per-leaf portal sets (`leaf.portals.add`). -/
def addPortalTo (m : BPath → List Portal) (key : BPath) (port : Portal) :
    BPath → List Portal :=
  fun x => if x = key then port :: m x else m x

/-- The inner loop of `generate_portals` for one visleaf `v`: walk its
neighbor iterator, skip solid neighbors and already-processed pairs, build
a portal for each fresh pair and record it in the tree's portal list and in
both leaves' portal sets. -/
def genInner (hd : Elem) (v : BPath) (ve : Elem) :
    List (BPath × Elem) → List (BPath × BPath) → List Portal →
    (BPath → List Portal) →
    Option (List (BPath × BPath) × List Portal × (BPath → List Portal))
  | [], processed, acc, m => some (processed, acc, m)
  | (n, ne) :: rest, processed, acc, m =>
      if ne.isSolid then genInner hd v ve rest processed acc m
      else if pairSeen processed v n then genInner hd v ve rest processed acc m
      else
        match mkPortal hd v n ve ne with
        | some port =>
            genInner hd v ve rest ((v, n) :: processed) (port :: acc)
              (addPortalTo (addPortalTo m v port) n port)
        | none => none

/-- The outer loop of `generate_portals` over all visleaves. -/
def genOuter (hd : Elem) :
    List (BPath × Elem) → List (BPath × BPath) → List Portal →
    (BPath → List Portal) → Option (List Portal × (BPath → List Portal))
  | [], _, acc, m => some (acc, m)
  | (v, ve) :: vs, processed, acc, m =>
      match genInner hd v ve (iterNeighbors hd v) processed acc m with
      | some (processed2, acc2, m2) => genOuter hd vs processed2 acc2 m2
      | none => none

/-- `BSPTree.generate_portals()`: clear all portal sets and rebuild them
from the current geometry. The per-leaf portal sets are returned as a map
from leaf handles to their current-generation portals (the cleared sets of
the visleaves; stale sets of solid leaves hold only portals of earlier
generations, which are distinct Python objects from all current ones). -/
def generatePortals (tr : BSPTree) : Option (BSPTree × (BPath → List Portal)) :=
  match genOuter tr.head (visleafPathsFrom [] tr.head) [] [] (fun _ => []) with
  | some (acc, m) => some ({ tr with portals := acc }, m)
  | none => none

/-! ## Visibility flood (`vismain.build_shroud`)

The flood loop is embedded generically over the leaf, portal and view-cone
data: the cone tests (`portal_within_viewcone`, `restrict_viewcone`) and
the cone values themselves involve floating-point trigonometry, and the
claim about the loop (portals traversed at most once, bounded pushes,
termination) holds for every choice of those functions, so they are
parameters of the embedding.  The per-leaf shroud mask (a Pygame surface)
is abstracted to the set of leaves a mask was allocated for. -/

/-- The `for portal in visleaf.portals` body: test the cone, skip portals
already in `alreadyProcessedPortals`, insert fresh ones and collect the
corresponding stack entries (far leaf with the restricted cone), in
iteration order. -/
def processPortals {L P C : Type} [DecidableEq P]
    (inCone : P → C → C → Bool) (restr : P → C → C → C × C) (other : P → L → L)
    (v : L) (cl cr : C) :
    List P → Finset P → List (L × C × C) × Finset P
  | [], seen => ([], seen)
  | p :: ps, seen =>
      if inCone p cl cr ∧ p ∉ seen then
        let nc := restr p cl cr
        let rec2 := processPortals inCone restr other v cl cr ps (insert p seen)
        ((other p v, nc.1, nc.2) :: rec2.1, rec2.2)
      else
        processPortals inCone restr other v cl cr ps seen

/-- The `while visleafStack` loop of `build_shroud`.  `allP` is the tree's
full portal set, `lp` the per-leaf portal sets (each a subset of `allP`, as
`generate_portals` guarantees — carried as the parameter `hlp`), `visited`
the key set of `shroudmapDict`, and `pushes` counts every entry ever pushed
on the stack (including the initial one).  Termination: each iteration
pops one entry and pushes exactly as many entries as portals newly
inserted into `seen`, all of them drawn from `allP` and fresh, so
`stack.length + (allP \ seen).card` strictly decreases. -/
def floodLoop {L P C : Type} [DecidableEq P] [DecidableEq L]
    (allP : Finset P) (lp : L → List P)
    (inCone : P → C → C → Bool) (restr : P → C → C → C × C) (other : P → L → L)
    (hlp : ∀ l, ∀ p ∈ lp l, p ∈ allP) :
    (stack : List (L × C × C)) → (seen : Finset P) →
    (visited : Finset L) → (pushes : Nat) → Finset L × Nat
  | [], _, visited, pushes => (visited, pushes)
  | (v, cl, cr) :: rest, seen, visited, pushes =>
      floodLoop allP lp inCone restr other hlp
        ((processPortals inCone restr other v cl cr (lp v) seen).1.reverse ++ rest)
        (processPortals inCone restr other v cl cr (lp v) seen).2
        (insert v visited)
        (pushes + (processPortals inCone restr other v cl cr (lp v) seen).1.length)
termination_by stack seen _ _ => stack.length + (allP \ seen).card
decreasing_by
  have key : ∀ (ps : List P) (sn : Finset P), (∀ p ∈ ps, p ∈ allP) →
      (allP \ (processPortals inCone restr other v cl cr ps sn).2).card +
        (processPortals inCone restr other v cl cr ps sn).1.length ≤
      (allP \ sn).card := by
    intro ps
    induction ps with
    | nil => intro sn _; simp [processPortals]
    | cons p ps ih =>
        intro sn hmem
        by_cases h : inCone p cl cr ∧ p ∉ sn
        · simp only [processPortals, if_pos h, List.length_cons]
          have h1 := ih (insert p sn) (fun x hx => hmem x (List.mem_cons_of_mem p hx))
          have h3 : p ∈ allP \ sn :=
            Finset.mem_sdiff.mpr ⟨hmem p (List.mem_cons_self p ps), h.2⟩
          have h4 : (allP \ insert p sn).card + 1 = (allP \ sn).card := by
            rw [Finset.sdiff_insert]
            exact Finset.card_erase_add_one h3
          omega
        · simp only [processPortals, if_neg h]
          exact ih sn (fun x hx => hmem x (List.mem_cons_of_mem p hx))
  have hkey := key (lp v) seen (fun p hp => hlp v p hp)
  simp only [List.length_append, List.length_reverse, List.length_cons]
  omega

/-- `build_shroud` from the point where the player leaf and the initial
view-cone rays are in hand: seed the stack with the player leaf (one push)
and run the flood.  Returns the key set of `shroudmapDict` and the total
number of stack pushes performed. -/
def buildShroudFlood {L P C : Type} [DecidableEq P] [DecidableEq L]
    (allP : Finset P) (lp : L → List P)
    (inCone : P → C → C → Bool) (restr : P → C → C → C × C) (other : P → L → L)
    (hlp : ∀ l, ∀ p ∈ lp l, p ∈ allP)
    (startLeaf : L) (cl cr : C) : Finset L × Nat :=
  floodLoop allP lp inCone restr other hlp [(startLeaf, cl, cr)] ∅ ∅ 1

/-! ## Auxiliary notions used to state and prove the claims -/

/-- Strip the (transient or renumbered) leafIDs, leaving the geometric and
solidity structure of the tree. -/
def stripIDs : Elem → Elem
  | .leaf b s _ => .leaf b s 0
  | .node b o pa lc rc => .node b o pa (stripIDs lc) (stripIDs rc)

/-- The opposite query direction. -/
def oppDirn : Dirn → Dirn
  | .L => .R
  | .R => .L
  | .T => .B
  | .B => .T

/-- The split orientation parallel to a query direction (the one whose
partitions separate a leaf from its neighbors in that direction). -/
def parOrient : Dirn → Orient
  | .L | .R => .verti
  | .T | .B => .horiz

/-- The child side from which the ascent must reach the common ancestor. -/
def ascSide : Dirn → Dir
  | .L => .right
  | .R => .left
  | .T => .right
  | .B => .left

/-- The other child direction. -/
def otherDir : Dir → Dir
  | .left => .right
  | .right => .left

/-- Steps the downward traversal may take for direction `d` at a node of
orientation `o`: at a parallel node only the side facing the target leaf
(which coincides with `ascSide d`), at a perpendicular node both. -/
def allowedStep (d : Dirn) (o : Orient) (c : Dir) : Bool :=
  match d, o with
  | .L, .verti => decide (c = .right)
  | .R, .verti => decide (c = .left)
  | .T, .horiz => decide (c = .right)
  | .B, .horiz => decide (c = .left)
  | .L, .horiz => true
  | .R, .horiz => true
  | .T, .verti => true
  | .B, .verti => true

/-- A relative path is one the downward traversal of
`_iter_directed_neighbors` can take through `sub` and it ends at a leaf. -/
def descOK (d : Dirn) : Elem → List Dir → Bool
  | .leaf _ _ _, [] => true
  | .leaf _ _ _, _ :: _ => false
  | .node _ _ _ _ _, [] => false
  | .node _ o _ lc _, .left :: s => allowedStep d o .left && descOK d lc s
  | .node _ o _ _ rc, .right :: s => allowedStep d o .right && descOK d rc s

/-- There is a node at path `q` whose orientation matches the ascent
stopping test of direction `d` when approached from side `s`. -/
def MatchAt (hd : Elem) (d : Dirn) (q : BPath) (s : Dir) : Prop :=
  ∃ b o pa lc rc, subtreeAt hd q = some (.node b o pa lc rc) ∧ ascendMatch d o s = true

/-- The declarative description of the ascent: `q` is the deepest proper
prefix of `p` at which the stopping test fires. -/
def AscSpec (hd : Elem) (d : Dirn) (p q : BPath) : Prop :=
  ∃ s rest, p = q ++ s :: rest ∧ MatchAt hd d q s ∧
    ∀ a s2 b2, rest = a ++ s2 :: b2 → ¬ MatchAt hd d (q ++ s :: a) s2

/-- The unordered pairs recorded in `alreadyProcessed`. -/
def pairsOf (processed : List (BPath × BPath)) : Finset (Sym2 BPath) :=
  (processed.map (fun q => s(q.1, q.2))).toFinset

/-- The set of visleaf handles of the tree. -/
def visleafFinset (hd : Elem) : Finset BPath :=
  ((visleafPathsFrom [] hd).map Prod.fst).toFinset

/-- The set of unordered pairs the specification counts: pairs `{V, N}` of
distinct visleaves such that `V ∈ iterNeighbors(N)`. -/
def claimPairs (hd : Elem) : Finset (Sym2 BPath) :=
  ((visleafFinset hd ×ˢ visleafFinset hd).filter
    (fun ab => ab.1 ≠ ab.2 ∧ ab.1 ∈ (iterNeighbors hd ab.2).map Prod.fst)).image
    (fun ab => s(ab.1, ab.2))

/-- Sample world used by concrete witnesses: a 4×4 world split vertically
at 2 into two non-solid leaves. -/
def sampleHead : Elem :=
  .node ⟨0, 0, 4, 4⟩ .verti 2 (.leaf ⟨0, 0, 2, 4⟩ false 0) (.leaf ⟨2, 0, 4, 4⟩ false 1)

/-- Sample tree built around `sampleHead`. -/
def sampleTree : BSPTree := ⟨4, 4, sampleHead, []⟩

/-! ## Structural lemmas about paths -/

theorem subtreeAt_append (a : BPath) :
    ∀ (e : Elem) (b : BPath),
      subtreeAt e (a ++ b) = (subtreeAt e a).bind (fun x => subtreeAt x b) := by
  induction a with
  | nil => intro e b; simp [subtreeAt]
  | cons d a ih =>
      intro e b
      cases e with
      | leaf bb s i => cases d <;> simp [subtreeAt]
      | node bb o pa lc rc => cases d <;> simp [subtreeAt, ih]

theorem subtreeAt_replaceAt_self (x : Elem) :
    ∀ (p : BPath) (e w : Elem), subtreeAt e p = some w →
      subtreeAt (replaceAt e p x) p = some x := by
  intro p
  induction p with
  | nil => intro e w _; simp [subtreeAt, replaceAt]
  | cons d p ih =>
      intro e w h
      cases e with
      | leaf bb s i => cases d <;> simp [subtreeAt] at h
      | node bb o pa lc rc =>
          cases d with
          | left => simpa [subtreeAt, replaceAt] using ih lc w (by simpa [subtreeAt] using h)
          | right => simpa [subtreeAt, replaceAt] using ih rc w (by simpa [subtreeAt] using h)

theorem subtreeAt_replaceAt_disjoint (x : Elem) :
    ∀ (q : BPath) (e : Elem) (r : BPath), ¬ q <+: r → ¬ r <+: q →
      subtreeAt (replaceAt e q x) r = subtreeAt e r := by
  intro q
  induction q with
  | nil => intro e r hq _; exact absurd List.nil_prefix hq
  | cons d q ih =>
      intro e r hq hr
      cases r with
      | nil => exact absurd List.nil_prefix hr
      | cons d2 r =>
          cases e with
          | leaf bb s i => cases d <;> simp [replaceAt]
          | node bb o pa lc rc =>
              by_cases hd : d = d2
              · subst hd
                have hq2 : ¬ q <+: r := fun h => hq (List.cons_prefix_cons.mpr ⟨rfl, h⟩)
                have hr2 : ¬ r <+: q := fun h => hr (List.cons_prefix_cons.mpr ⟨rfl, h⟩)
                cases d <;> simp [replaceAt, subtreeAt, ih _ _ hq2 hr2]
              · cases d <;> cases d2 <;> simp_all [replaceAt, subtreeAt]

/-! ## C2: tree construction -/

/-- C2, counterexample: the claim says that for positive dimensions the
constructor produces a tree whose root is a single NON-solid leaf, but the
root of `new(2, 2)` is a solid leaf (`BSPLeaf.__init__` sets
`self.solid = True` and `BSPTree.__init__` never changes it). The claimed
failure on non-positive dimensions also does not happen: the constructor is
total, e.g. `new(-1, 5)` returns an ordinary tree. -/
theorem C2_counterexample :
    Elem.isSolid (BSPTree.new 2 2).head = true ∧
    BSPTree.new (-1) 5 = ⟨-1, 5, Elem.leaf ⟨0, 0, -1, 5⟩ true 0, []⟩ :=
  ⟨rfl, rfl⟩

/-- C2, amended: `new(maxW, maxH)` performs no dimension check and never
fails; for every pair of dimensions it produces a tree with those
dimensions whose root is a single SOLID leaf with bounds
`(0, 0, maxW, maxH)` and an empty portal set. -/
theorem C2_new_tree_amended (w h : Int) :
    (BSPTree.new w h).maxWidth = w ∧ (BSPTree.new w h).maxHeight = h ∧
    (BSPTree.new w h).head = Elem.leaf ⟨0, 0, w, h⟩ true 0 ∧
    Elem.isLeafE (BSPTree.new w h).head = true ∧
    Elem.isSolid (BSPTree.new w h).head = true ∧
    (BSPTree.new w h).portals = [] :=
  ⟨rfl, rfl, rfl, rfl, rfl, rfl⟩

/-! ## C9: leaf division -/

/-- C9, counterexample: the claim says `divideLeaf` fails for EVERY leaf,
including the root, whenever the partition is not strictly inside the
leaf's bounds; but the root branch of `divide_leaf` performs no range
check, so dividing the root of a fresh 4×4 world at partition 99
succeeds. -/
theorem C9_counterexample :
    (divideLeaf (BSPTree.new 4 4) [] Orient.verti 99).isSome = true := by
  decide

/-- C9, amended: for a non-root leaf, `divide_leaf` fails exactly when the
partition is not strictly between the leaf's bounds on the split axis, and
otherwise replaces the leaf with a fresh node; for the root leaf no range
check is performed and the root is replaced unconditionally. -/
theorem C9_divide_leaf_amended (tr : BSPTree) (p : BPath) (o : Orient) (pa : Int)
    (b : Bounds) (s : Bool) (i : Int)
    (h : subtreeAt tr.head p = some (.leaf b s i)) :
    (p = [] → divideLeaf tr p o pa = some { tr with head := mkNode b o pa }) ∧
    (p ≠ [] → inRange o b pa = false → divideLeaf tr p o pa = none) ∧
    (p ≠ [] → inRange o b pa = true →
      ∃ tr2, divideLeaf tr p o pa = some tr2 ∧
        tr2.maxWidth = tr.maxWidth ∧ tr2.maxHeight = tr.maxHeight ∧
        subtreeAt tr2.head p = some (mkNode b o pa)) := by
  refine ⟨?_, ?_, ?_⟩
  · intro hp
    subst hp
    simp [divideLeaf, h]
  · intro hp hrange
    simp [divideLeaf, h, hp, hrange]
  · intro hp hrange
    refine ⟨{ tr with head := replaceAt tr.head p (mkNode b o pa) }, ?_, rfl, rfl, ?_⟩
    · simp [divideLeaf, h, hp, hrange]
    · exact subtreeAt_replaceAt_self _ p tr.head _ h

/-- C9, witness: the amended theorem applied to the left leaf of the sample
4×4 world, with an in-range partition. -/
theorem C9_divide_leaf_witness :
    ([Dir.left] ≠ ([] : BPath)) ∧ inRange Orient.verti ⟨0, 0, 2, 4⟩ 1 = true ∧
    ∃ tr2, divideLeaf sampleTree [Dir.left] Orient.verti 1 = some tr2 ∧
      tr2.maxWidth = sampleTree.maxWidth ∧ tr2.maxHeight = sampleTree.maxHeight ∧
      subtreeAt tr2.head [Dir.left] = some (mkNode ⟨0, 0, 2, 4⟩ Orient.verti 1) := by
  refine ⟨by decide, by decide, ?_⟩
  exact (C9_divide_leaf_amended sampleTree [Dir.left] Orient.verti 1
    ⟨0, 0, 2, 4⟩ false 0 (by decide)).2.2 (by decide) (by decide)

/-! ## C10 and C8: the degenerate orientation test -/

/-- C10: the `orientation` helper of `segments_intersect` subtracts an
expression from itself and therefore returns 0 on all inputs; consequently
`segments_intersect` returns true exactly when some endpoint of either
segment lies inside the axis-aligned bounding box of the other segment
(which is what `point_on_segment` tests). -/
theorem C10_orientation_degenerate (p1 p2 p3 : Pt) (s1 s2 : Pt × Pt) :
    orientation p1 p2 p3 = 0 ∧
    segmentsIntersect s1 s2 =
      (pointOnSegment s2.1 s1.1 s1.2 || pointOnSegment s2.2 s1.1 s1.2 ||
        pointOnSegment s1.1 s2.1 s2.2 || pointOnSegment s1.2 s2.1 s2.2) := by
  have h0 : ∀ a b c : Pt, orientation a b c = 0 := by
    intro a b c
    simp [orientation]
  refine ⟨h0 p1 p2 p3, ?_⟩
  simp [segmentsIntersect, h0, Bool.or_assoc]

/-- C8: `segments_intersect` is claimed to return true iff the closed
segments share a point, but the degenerate orientation test reduces it to a
bounding-box check: for `seg1 = ((0,0),(10,10))` and `seg2 = ((5,0),(6,0))`
the function returns true even though the two closed segments share no
point. -/
theorem C8_segments_intersect_bug :
    segmentsIntersect ((0, 0), (10, 10)) ((5, 0), (6, 0)) = true ∧
    ¬ ∃ p : Pt, ptOnClosedSeg p (0, 0) (10, 10) ∧ ptOnClosedSeg p (5, 0) (6, 0) := by
  constructor
  · have h0 : ∀ a b c : Pt, orientation a b c = 0 := by
      intro a b c
      simp [orientation]
    norm_num [segmentsIntersect, h0, pointOnSegment]
  · rintro ⟨p, ⟨t, ht0, _, hx1, hy1⟩, ⟨u, hu0, _, hx2, hy2⟩⟩
    simp only at hx1 hy1 hx2 hy2
    have ht : p.2 = 10 * t := by rw [hy1]; ring
    have hu : p.2 = 0 := by rw [hy2]; ring
    have hteq : t = 0 := by
      have : (10 : ℚ) * t = 0 := by rw [← ht, hu]
      linarith
    have hp1 : p.1 = 0 := by rw [hx1, hteq]; ring
    have hp2 : p.1 = 5 + u := by rw [hx2]; ring
    linarith

/-! ## C7: point location -/

theorem leafFromCoordsGo_isLeaf (x y : Int) :
    ∀ e : Elem, (leafFromCoordsGo x y e).isLeafE = true := by
  intro e
  induction e with
  | leaf b s i => simp [leafFromCoordsGo, Elem.isLeafE]
  | node b o pa lc rc ihl ihr =>
      cases o <;> simp only [leafFromCoordsGo] <;> split <;> assumption

theorem leafFromCoordsGo_bounds (x y : Int) :
    ∀ e : Elem, wfElem e = true →
      e.boundsOf.left ≤ x → x < e.boundsOf.right →
      e.boundsOf.top ≤ y → y < e.boundsOf.bottom →
      (leafFromCoordsGo x y e).boundsOf.left ≤ x ∧
        x < (leafFromCoordsGo x y e).boundsOf.right ∧
        (leafFromCoordsGo x y e).boundsOf.top ≤ y ∧
        y < (leafFromCoordsGo x y e).boundsOf.bottom := by
  intro e
  induction e with
  | leaf b s i =>
      intro _ h1 h2 h3 h4
      exact ⟨h1, h2, h3, h4⟩
  | node b o pa lc rc ihl ihr =>
      intro hwf h1 h2 h3 h4
      simp only [Elem.boundsOf] at h1 h2 h3 h4
      cases o with
      | verti =>
          simp only [wfElem, Bool.and_eq_true, decide_eq_true_eq] at hwf
          obtain ⟨⟨⟨⟨⟨hpl, hpr⟩, hlb⟩, hrb⟩, hwl⟩, hwr⟩ := hwf
          simp only [leafFromCoordsGo]
          by_cases hx : x ≥ pa
          · rw [if_pos hx]
            exact ihr hwr (by rw [hrb]; exact hx) (by rw [hrb]; exact h2)
              (by rw [hrb]; exact h3) (by rw [hrb]; exact h4)
          · rw [if_neg hx]
            exact ihl hwl (by rw [hlb]; exact h1) (by rw [hlb]; exact lt_of_not_ge hx)
              (by rw [hlb]; exact h3) (by rw [hlb]; exact h4)
      | horiz =>
          simp only [wfElem, Bool.and_eq_true, decide_eq_true_eq] at hwf
          obtain ⟨⟨⟨⟨⟨hpt, hpb⟩, hlb⟩, hrb⟩, hwl⟩, hwr⟩ := hwf
          simp only [leafFromCoordsGo]
          by_cases hy : y ≥ pa
          · rw [if_pos hy]
            exact ihr hwr (by rw [hrb]; exact h1) (by rw [hrb]; exact h2)
              (by rw [hrb]; exact hy) (by rw [hrb]; exact h4)
          · rw [if_neg hy]
            exact ihl hwl (by rw [hlb]; exact h1) (by rw [hlb]; exact h2)
              (by rw [hlb]; exact h3) (by rw [hlb]; exact lt_of_not_ge hy)

/-- C7: on a tree whose stored bounds are consistent and whose root bounds
are the world rectangle, `leaf_from_coords` returns a leaf (the descent
chooses the right child exactly when the point's coordinate on the split
axis is `>= partition`, which is its definition) whose bounds contain the
queried point, for every point strictly inside the world rectangle. -/
theorem C7_leaf_from_coords (tr : BSPTree) (x y : Int)
    (hwf : wfElem tr.head = true)
    (hroot : tr.head.boundsOf = ⟨0, 0, tr.maxWidth, tr.maxHeight⟩)
    (hx1 : 0 < x) (hx2 : x < tr.maxWidth) (hy1 : 0 < y) (hy2 : y < tr.maxHeight) :
    Elem.isLeafE (leafFromCoords tr x y) = true ∧
    (leafFromCoords tr x y).boundsOf.left ≤ x ∧
    x ≤ (leafFromCoords tr x y).boundsOf.right ∧
    (leafFromCoords tr x y).boundsOf.top ≤ y ∧
    y ≤ (leafFromCoords tr x y).boundsOf.bottom := by
  have h := leafFromCoordsGo_bounds x y tr.head hwf
    (by rw [hroot]; exact le_of_lt hx1) (by rw [hroot]; exact hx2)
    (by rw [hroot]; exact le_of_lt hy1) (by rw [hroot]; exact hy2)
  exact ⟨leafFromCoordsGo_isLeaf x y tr.head, h.1, le_of_lt h.2.1,
    h.2.2.1, le_of_lt h.2.2.2⟩

/-- C7, witness: the containment theorem applied to the sample 4×4 world at
the interior point `(3, 1)`. -/
theorem C7_leaf_from_coords_witness :
    wfElem sampleTree.head = true ∧
    Elem.isLeafE (leafFromCoords sampleTree 3 1) = true ∧
    (leafFromCoords sampleTree 3 1).boundsOf.left ≤ 3 ∧
    (3 : Int) ≤ (leafFromCoords sampleTree 3 1).boundsOf.right ∧
    (leafFromCoords sampleTree 3 1).boundsOf.top ≤ 1 ∧
    (1 : Int) ≤ (leafFromCoords sampleTree 3 1).boundsOf.bottom := by
  refine ⟨by decide, ?_⟩
  have h := C7_leaf_from_coords sampleTree 3 1 (by decide) (by decide)
    (by decide) (by decide) (by decide) (by decide)
  exact ⟨h.1, h.2.1, h.2.2.1, h.2.2.2.1, h.2.2.2.2⟩

/-! ## C1: leaf merging -/

/-- C1, counterexample: merging the left leaf of the sample world replaces
the parent (the head) by a fresh leaf that is SOLID, not non-solid as the
claim states; and merging the root of a single-leaf tree leaves the tree
unchanged (here the root stays a solid leaf with its old `leafID = 5`)
instead of resetting it to a fresh non-solid leaf. -/
theorem C1_counterexample :
    (mergeLeaf sampleTree [Dir.left]).map (fun tr2 => Elem.isSolid tr2.head) =
      some true ∧
    mergeLeaf ⟨4, 4, Elem.leaf ⟨0, 0, 4, 4⟩ true 5, []⟩ [] =
      some ⟨4, 4, Elem.leaf ⟨0, 0, 4, 4⟩ true 5, []⟩ := by
  constructor
  · decide
  · decide

/-- C1, amended: for a valid leaf handle `p = q ++ [s]` (a leaf with a
parent at path `q`), `merge_leaf` replaces the parent with a fresh SOLID
leaf whose bounds are the parent's bounds (the world rectangle when the
parent is the head) and changes nothing outside the parent's subtree;
merging the root leaf (`p = []`) leaves the tree unchanged. -/
theorem C1_merge_leaf_amended (tr : BSPTree) (p q : BPath) (s : Dir)
    (hp : isLeafPath tr.head p = true) :
    (p = [] → mergeLeaf tr p = some tr) ∧
    (p = q ++ [s] →
      ∃ parentE, subtreeAt tr.head q = some parentE ∧
        ∃ tr2, mergeLeaf tr p = some tr2 ∧
          tr2.maxWidth = tr.maxWidth ∧ tr2.maxHeight = tr.maxHeight ∧
          tr2.portals = tr.portals ∧
          subtreeAt tr2.head q = some (freshLeaf
            (if q = [] then ⟨0, 0, tr.maxWidth, tr.maxHeight⟩ else parentE.boundsOf)) ∧
          ∀ r, ¬ q <+: r → ¬ r <+: q → subtreeAt tr2.head r = subtreeAt tr.head r) := by
  constructor
  · intro hzero
    simp [mergeLeaf, hzero]
  · intro hdecomp
    have hleaf : ∃ w, subtreeAt tr.head p = some w := by
      unfold isLeafPath at hp
      rcases hsub : subtreeAt tr.head p with _ | w
      · rw [hsub] at hp; simp at hp
      · exact ⟨w, rfl⟩
    obtain ⟨w, hw⟩ := hleaf
    have hq : ∃ parentE, subtreeAt tr.head q = some parentE := by
      rw [hdecomp, subtreeAt_append] at hw
      rcases hqq : subtreeAt tr.head q with _ | pe
      · rw [hqq] at hw; simp at hw
      · exact ⟨pe, rfl⟩
    obtain ⟨parentE, hparent⟩ := hq
    refine ⟨parentE, hparent, ?_⟩
    have hne : p ≠ [] := by
      rw [hdecomp]; simp
    have hdrop : p.dropLast = q := by
      rw [hdecomp]; exact List.dropLast_concat
    by_cases hq0 : q = []
    · subst hq0
      refine ⟨{ tr with head := freshLeaf ⟨0, 0, tr.maxWidth, tr.maxHeight⟩ },
        ?_, rfl, rfl, rfl, ?_, ?_⟩
      · simp [mergeLeaf, hne, hdrop]
      · simp [subtreeAt, freshLeaf]
      · intro r hqr _
        exact absurd List.nil_prefix hqr
    · refine ⟨{ tr with head := replaceAt tr.head q (freshLeaf parentE.boundsOf) },
        ?_, rfl, rfl, rfl, ?_, ?_⟩
      · simp only [mergeLeaf, if_neg hne, hdrop, if_neg hq0, hparent]
      · rw [if_neg hq0]
        exact subtreeAt_replaceAt_self _ q tr.head parentE hparent
      · intro r h1 h2
        exact subtreeAt_replaceAt_disjoint _ q tr.head r h1 h2

/-- C1, witness: the amended theorem applied to the left leaf of the sample
world (whose parent is the head). -/
theorem C1_merge_leaf_witness :
    isLeafPath sampleTree.head [Dir.left] = true ∧
    ∃ parentE, subtreeAt sampleTree.head [] = some parentE ∧
      ∃ tr2, mergeLeaf sampleTree [Dir.left] = some tr2 ∧
        tr2.maxWidth = sampleTree.maxWidth ∧ tr2.maxHeight = sampleTree.maxHeight ∧
        tr2.portals = sampleTree.portals ∧
        subtreeAt tr2.head [] = some (freshLeaf
          (if ([] : BPath) = [] then ⟨0, 0, sampleTree.maxWidth, sampleTree.maxHeight⟩
            else parentE.boundsOf)) ∧
        ∀ r, ¬ ([] : BPath) <+: r → ¬ r <+: ([] : BPath) →
          subtreeAt tr2.head r = subtreeAt sampleTree.head r := by
  refine ⟨by decide, ?_⟩
  exact (C1_merge_leaf_amended sampleTree [Dir.left] [] Dir.left (by decide)).2 rfl

/-! ## C6: the flood loop traverses each portal at most once -/

theorem processPortals_key {L P C : Type} [DecidableEq P]
    (inCone : P → C → C → Bool) (restr : P → C → C → C × C) (other : P → L → L)
    (v : L) (cl cr : C) (allP : Finset P) :
    ∀ (ps : List P) (sn : Finset P), (∀ p ∈ ps, p ∈ allP) →
      (allP \ (processPortals inCone restr other v cl cr ps sn).2).card +
        (processPortals inCone restr other v cl cr ps sn).1.length ≤
      (allP \ sn).card := by
  intro ps
  induction ps with
  | nil => intro sn _; simp [processPortals]
  | cons p ps ih =>
      intro sn hmem
      by_cases h : inCone p cl cr ∧ p ∉ sn
      · simp only [processPortals, if_pos h, List.length_cons]
        have h1 := ih (insert p sn) (fun x hx => hmem x (List.mem_cons_of_mem p hx))
        have h3 : p ∈ allP \ sn :=
          Finset.mem_sdiff.mpr ⟨hmem p (List.mem_cons_self p ps), h.2⟩
        have h4 : (allP \ insert p sn).card + 1 = (allP \ sn).card := by
          rw [Finset.sdiff_insert]
          exact Finset.card_erase_add_one h3
        omega
      · simp only [processPortals, if_neg h]
        exact ih sn (fun x hx => hmem x (List.mem_cons_of_mem p hx))

theorem floodLoop_pushes {L P C : Type} [DecidableEq P] [DecidableEq L]
    (allP : Finset P) (lp : L → List P)
    (inCone : P → C → C → Bool) (restr : P → C → C → C × C) (other : P → L → L)
    (hlp : ∀ l, ∀ p ∈ lp l, p ∈ allP) :
    ∀ (n : Nat) (stack : List (L × C × C)) (seen : Finset P)
      (visited : Finset L) (pushes : Nat),
      stack.length + (allP \ seen).card ≤ n →
      (floodLoop allP lp inCone restr other hlp stack seen visited pushes).2 ≤
        pushes + (allP \ seen).card := by
  intro n
  induction n with
  | zero =>
      intro stack seen visited pushes hb
      have : stack = [] := List.length_eq_zero.mp (by omega)
      subst this
      simp [floodLoop]
  | succ n ih =>
      intro stack seen visited pushes hb
      cases stack with
      | nil => simp [floodLoop]
      | cons t rest =>
          obtain ⟨v, cl, cr⟩ := t
          rw [floodLoop]
          have hkey := processPortals_key inCone restr other v cl cr allP (lp v) seen
            (fun p hp => hlp v p hp)
          have hb2 :
              ((processPortals inCone restr other v cl cr (lp v) seen).1.reverse
                  ++ rest).length +
                (allP \ (processPortals inCone restr other v cl cr (lp v) seen).2).card
                ≤ n := by
            simp only [List.length_append, List.length_reverse]
            simp only [List.length_cons] at hb
            omega
          have hres := ih _ _ (insert v visited)
            (pushes + (processPortals inCone restr other v cl cr (lp v) seen).1.length)
            hb2
          omega

/-- C6: for every input — every portal universe, every per-leaf portal
assignment contained in it, every cone-test and cone-restriction function
and every starting configuration — the flood loop of `build_shroud`
performs at most `|portals| + 1` stack pushes (the initial push included):
a portal is inserted into `alreadyProcessedPortals` before the leaf on its
far side is pushed, a portal already in the set is never pushed again, and
the loop terminates (the recursion is well founded by
`stack.length + |portals \ seen|`). -/
theorem C6_flood_push_bound {L P C : Type} [DecidableEq P] [DecidableEq L]
    (allP : Finset P) (lp : L → List P)
    (inCone : P → C → C → Bool) (restr : P → C → C → C × C) (other : P → L → L)
    (hlp : ∀ l, ∀ p ∈ lp l, p ∈ allP) (startLeaf : L) (cl cr : C) :
    (buildShroudFlood allP lp inCone restr other hlp startLeaf cl cr).2 ≤
      allP.card + 1 := by
  have h := floodLoop_pushes allP lp inCone restr other hlp
    (1 + (allP \ ∅).card) [(startLeaf, cl, cr)] ∅ ∅ 1 (by simp)
  simp only [Finset.sdiff_empty] at h
  simpa [buildShroudFlood, Nat.add_comm] using h

/-- C6, witness: the bound applied to a concrete two-leaf, one-portal
instance (leaves and portals drawn from `Nat`, a trivial cone type). -/
theorem C6_flood_push_bound_witness :
    (∀ l : Nat, ∀ p ∈ (fun _ : Nat => [0]) l, p ∈ ({0} : Finset Nat)) ∧
    (buildShroudFlood ({0} : Finset Nat) (fun _ => [0]) (fun _ _ _ => true)
      (fun _ c1 c2 => (c1, c2)) (fun _ l => l + 1)
      (fun _ p hp => by simpa using hp) 0 () ()).2 ≤ ({0} : Finset Nat).card + 1 := by
  refine ⟨fun l p hp => by simpa using hp, ?_⟩
  exact C6_flood_push_bound ({0} : Finset Nat) (fun _ => [0]) (fun _ _ _ => true)
    (fun _ c1 c2 => (c1, c2)) (fun _ l => l + 1) (fun _ p hp => by simpa using hp) 0 () ()

/-! ## C4: segment collision -/

theorem nodeSegCollision_eq_find (e : Elem) :
    ∀ sp ep : Pt, nodeSegCollision e sp ep = (crossedLeaves e sp ep).find? Elem.isSolid := by
  induction e with
  | leaf b s i =>
      intro sp ep
      cases s <;> simp [nodeSegCollision, crossedLeaves, List.find?, Elem.isSolid]
  | node b o pa lc rc ihl ihr =>
      intro sp ep
      simp only [nodeSegCollision, crossedLeaves]
      split
      · exact ihl sp ep
      · split
        · exact ihr sp ep
        · split
          · rw [List.find?_append, ihl, ihr]
            cases (crossedLeaves lc sp _).find? Elem.isSolid <;> simp
          · rw [List.find?_append, ihr, ihl]
            cases (crossedLeaves rc sp _).find? Elem.isSolid <;> simp

/-- C4: `segment_collision(startPos, endPos)` first nudges the start point
by `(-1, 0)` when the segment runs leftwards and by `(0, -1)` when it runs
upwards, and then returns exactly the first solid leaf in the ordered list
of leaves the nudged segment passes through (recursing on the start-side
child of every straddled partition before the end-side child), or `none`
when that list contains no solid leaf. -/
theorem C4_segment_collision (tr : BSPTree) (s e : Pt) :
    nudge s e = ((if e.1 < s.1 then s.1 - 1 else s.1),
                 (if e.2 < s.2 then s.2 - 1 else s.2)) ∧
    segmentCollision tr s e =
      (crossedLeaves tr.head (nudge s e) e).find? Elem.isSolid := by
  constructor
  · unfold nudge
    by_cases h1 : e.1 < s.1 <;> by_cases h2 : e.2 < s.2 <;> simp [h1, h2]
  · exact nodeSegCollision_eq_find tr.head (nudge s e) e

/-! ## C3: serialization round trip -/

theorem getAt_append_left : ∀ (xs ys : List ElemRec) (i : Nat), i < xs.length →
    getAt (xs ++ ys) i = getAt xs i := by
  intro xs
  induction xs with
  | nil => intro ys i h; simp at h
  | cons x xs ih =>
      intro ys i h
      cases i with
      | zero => simp [getAt]
      | succ i => simpa [getAt] using ih ys i (by simpa using h)

theorem getAt_append_right : ∀ (xs ys : List ElemRec) (j : Nat),
    getAt (xs ++ ys) (xs.length + j) = getAt ys j := by
  intro xs
  induction xs with
  | nil => intro ys j; simp [getAt]
  | cons x xs ih =>
      intro ys j
      simpa [getAt, Nat.succ_add] using ih ys j

theorem length_flattenFrom : ∀ (e : Elem) (pos : Nat),
    (flattenFrom pos e).length = e.size := by
  intro e
  induction e with
  | leaf b s i => intro pos; simp [flattenFrom, Elem.size]
  | node b o pa lc rc ihl ihr =>
      intro pos
      simp [flattenFrom, Elem.size, ihl, ihr]
      omega

theorem getAt_append_self : ∀ (xs : List ElemRec) (y : ElemRec) (ys : List ElemRec),
    getAt (xs ++ y :: ys) xs.length = some y := by
  intro xs
  induction xs with
  | nil => intro y ys; simp [getAt]
  | cons x xs ih => intro y ys; simpa [getAt] using ih y ys

theorem resolve_flatten : ∀ (e : Elem) (pre suf : List ElemRec) (fuel : Nat),
    e.size ≤ fuel →
    resolveElems (pre ++ flattenFrom pre.length e ++ suf) fuel pre.length = some e := by
  intro e
  induction e with
  | leaf b s i =>
      intro pre suf fuel hf
      have h1 : 1 ≤ fuel := by simpa [Elem.size] using hf
      obtain ⟨fuel2, rfl⟩ : ∃ f2, fuel = f2 + 1 := ⟨fuel - 1, by omega⟩
      simp only [flattenFrom, resolveElems]
      rw [List.append_assoc, List.singleton_append, getAt_append_self]
  | node b o pa lc rc ihl ihr =>
      intro pre suf fuel hf
      have h1 : 1 + rc.size + lc.size ≤ fuel := by simpa [Elem.size] using hf
      obtain ⟨fuel2, rfl⟩ : ∃ f2, fuel = f2 + 1 := ⟨fuel - 1, by omega⟩
      simp only [flattenFrom, resolveElems]
      have hrec :
          getAt (pre ++ (ElemRec.nodeR b o pa (pre.length + 1 + rc.size) (pre.length + 1) ::
              (flattenFrom (pre.length + 1) rc ++ flattenFrom (pre.length + 1 + rc.size) lc))
            ++ suf) pre.length =
          some (ElemRec.nodeR b o pa (pre.length + 1 + rc.size) (pre.length + 1)) := by
        rw [List.append_assoc, List.cons_append, getAt_append_self]
      have hright :
          resolveElems (pre ++ (ElemRec.nodeR b o pa (pre.length + 1 + rc.size)
              (pre.length + 1) ::
              (flattenFrom (pre.length + 1) rc ++ flattenFrom (pre.length + 1 + rc.size) lc))
            ++ suf) fuel2 (pre.length + 1) = some rc := by
        have hr := ihr (pre ++ [ElemRec.nodeR b o pa (pre.length + 1 + rc.size)
            (pre.length + 1)])
          (flattenFrom (pre.length + 1 + rc.size) lc ++ suf) fuel2 (by omega)
        simp only [List.length_append, List.length_singleton] at hr
        have heq :
            (pre ++ [ElemRec.nodeR b o pa (pre.length + 1 + rc.size) (pre.length + 1)]) ++
              flattenFrom (pre.length + 1) rc ++
              (flattenFrom (pre.length + 1 + rc.size) lc ++ suf) =
            pre ++ (ElemRec.nodeR b o pa (pre.length + 1 + rc.size) (pre.length + 1) ::
              (flattenFrom (pre.length + 1) rc ++ flattenFrom (pre.length + 1 + rc.size) lc))
            ++ suf := by
          simp
        rw [heq] at hr
        exact hr
      have hleft :
          resolveElems (pre ++ (ElemRec.nodeR b o pa (pre.length + 1 + rc.size)
              (pre.length + 1) ::
              (flattenFrom (pre.length + 1) rc ++ flattenFrom (pre.length + 1 + rc.size) lc))
            ++ suf) fuel2 (pre.length + 1 + rc.size) = some lc := by
        have hl := ihl ((pre ++ [ElemRec.nodeR b o pa (pre.length + 1 + rc.size)
            (pre.length + 1)]) ++ flattenFrom (pre.length + 1) rc)
          suf fuel2 (by omega)
        have hlen : ((pre ++ [ElemRec.nodeR b o pa (pre.length + 1 + rc.size)
            (pre.length + 1)]) ++ flattenFrom (pre.length + 1) rc).length =
            pre.length + 1 + rc.size := by
          simp [length_flattenFrom]
          omega
        rw [hlen] at hl
        have heq :
            (pre ++ [ElemRec.nodeR b o pa (pre.length + 1 + rc.size) (pre.length + 1)]) ++
              flattenFrom (pre.length + 1) rc ++
              flattenFrom (pre.length + 1 + rc.size) lc ++ suf =
            pre ++ (ElemRec.nodeR b o pa (pre.length + 1 + rc.size) (pre.length + 1) ::
              (flattenFrom (pre.length + 1) rc ++ flattenFrom (pre.length + 1 + rc.size) lc))
            ++ suf := by
          simp
        rw [heq] at hl
        exact hl
      rw [hrec]
      simp only [hright, hleft]

theorem stripIDs_renumberFrom : ∀ (e : Elem) (n : Int),
    stripIDs (renumberFrom n e).1 = stripIDs e := by
  intro e
  induction e with
  | leaf b s i =>
      intro n
      cases s <;> simp [renumberFrom, stripIDs]
  | node b o pa lc rc ihl ihr =>
      intro n
      simp [renumberFrom, stripIDs, ihl, ihr]

/-- C3: deserializing the serialization of any tree succeeds and
reconstructs exactly the renumbered tree: the same shape, bounds,
orientations, partitions and solidity as the input (witnessed by equality
after stripping leafIDs) and precisely the visleaf leafID assignment that
`toKV`'s renumbering pass produced. The reconstructed tree starts with an
empty portal set, as `from_vdf` builds a fresh tree. -/
theorem C3_roundtrip (tr : BSPTree) :
    fromKV (toKV tr) =
      some ⟨tr.maxWidth, tr.maxHeight, (renumberTree tr).head, []⟩ ∧
    stripIDs (renumberTree tr).head = stripIDs tr.head := by
  constructor
  · have h := resolve_flatten (renumberFrom 0 tr.head).1 [] []
      ((renumberFrom 0 tr.head).1.size) le_rfl
    simp only [List.nil_append, List.append_nil, List.length_nil] at h
    simp only [fromKV, toKV, renumberTree, length_flattenFrom, h]
  · exact stripIDs_renumberFrom tr.head 0

/-! ## C5: portal generation. Characterizations of the neighbor query -/

theorem ascendMatch_iff (d : Dirn) (o : Orient) (s : Dir) :
    ascendMatch d o s = true ↔ (o = parOrient d ∧ s = ascSide d) := by
  cases d <;> cases o <;> cases s <;> simp [ascendMatch, parOrient, ascSide]

theorem allowedStep_iff (d : Dirn) (o : Orient) (c : Dir) :
    allowedStep d o c = true ↔ (o = parOrient d → c = ascSide d) := by
  cases d <;> cases o <;> cases c <;> simp [allowedStep, parOrient, ascSide]

theorem entryChild_eq (d : Dirn) : entryChild d = otherDir (ascSide d) := by
  cases d <;> rfl

theorem parOrient_opp (d : Dirn) : parOrient (oppDirn d) = parOrient d := by
  cases d <;> rfl

theorem ascSide_opp (d : Dirn) : ascSide (oppDirn d) = otherDir (ascSide d) := by
  cases d <;> rfl

theorem otherDir_ne (c : Dir) : otherDir c ≠ c := by
  cases c <;> simp [otherDir]

theorem otherDir_otherDir (c : Dir) : otherDir (otherDir c) = c := by
  cases c <;> rfl

theorem dir_eq_or_other (c c2 : Dir) : c2 = c ∨ c2 = otherDir c := by
  cases c <;> cases c2 <;> simp [otherDir]

theorem mem_descendCollect (d : Dirn) :
    ∀ (sub : Elem) (base q : BPath) (e : Elem),
      (q, e) ∈ descendCollect d sub base ↔
        ∃ s, q = base ++ s ∧ descOK d sub s = true ∧ subtreeAt sub s = some e := by
  intro sub
  induction sub with
  | leaf b so i =>
      intro base q e
      simp only [descendCollect, List.mem_singleton, Prod.mk.injEq]
      constructor
      · rintro ⟨rfl, rfl⟩
        exact ⟨[], by simp, by simp [descOK], by simp [subtreeAt]⟩
      · rintro ⟨s, rfl, hok, hsub⟩
        cases s with
        | nil =>
            simp only [subtreeAt, Option.some.injEq] at hsub
            simp [hsub]
        | cons c s2 => simp [descOK] at hok
  | node b o pa lc rc ihl ihr =>
      intro base q e
      cases d <;> cases o <;>
      first
      | -- single child: right subtree, step .right
        (simp only [descendCollect]
         rw [ihr]
         constructor
         · rintro ⟨s, rfl, hok, hsub⟩
           exact ⟨.right :: s, by simp, by simp [descOK, allowedStep, hok],
             by simpa [subtreeAt] using hsub⟩
         · rintro ⟨s, rfl, hok, hsub⟩
           cases s with
           | nil => simp [descOK] at hok
           | cons c s2 =>
               cases c
               · simp [descOK, allowedStep] at hok
               · refine ⟨s2, by simp, ?_, by simpa [subtreeAt] using hsub⟩
                 simpa [descOK, allowedStep] using hok)
      | -- single child: left subtree, step .left
        (simp only [descendCollect]
         rw [ihl]
         constructor
         · rintro ⟨s, rfl, hok, hsub⟩
           exact ⟨.left :: s, by simp, by simp [descOK, allowedStep, hok],
             by simpa [subtreeAt] using hsub⟩
         · rintro ⟨s, rfl, hok, hsub⟩
           cases s with
           | nil => simp [descOK] at hok
           | cons c s2 =>
               cases c
               · refine ⟨s2, by simp, ?_, by simpa [subtreeAt] using hsub⟩
                 simpa [descOK, allowedStep] using hok
               · simp [descOK, allowedStep] at hok)
      | -- both children
        (simp only [descendCollect, List.mem_append]
         rw [ihr, ihl]
         constructor
         · rintro (⟨s, rfl, hok, hsub⟩ | ⟨s, rfl, hok, hsub⟩)
           · exact ⟨.right :: s, by simp, by simp [descOK, allowedStep, hok],
               by simpa [subtreeAt] using hsub⟩
           · exact ⟨.left :: s, by simp, by simp [descOK, allowedStep, hok],
               by simpa [subtreeAt] using hsub⟩
         · rintro ⟨s, rfl, hok, hsub⟩
           cases s with
           | nil => simp [descOK] at hok
           | cons c s2 =>
               cases c
               · right
                 refine ⟨s2, by simp, ?_, by simpa [subtreeAt] using hsub⟩
                 simpa [descOK, allowedStep] using hok
               · left
                 refine ⟨s2, by simp, ?_, by simpa [subtreeAt] using hsub⟩
                 simpa [descOK, allowedStep] using hok)

theorem concat_eq_append_cons {α : Type} (xs : List α) (x : α) (q : List α) (s : α)
    (rest : List α) :
    xs ++ [x] = q ++ s :: rest ↔
      (q = xs ∧ s = x ∧ rest = []) ∨
        ∃ rest2, rest = rest2 ++ [x] ∧ xs = q ++ s :: rest2 := by
  constructor
  · intro h
    rcases List.eq_nil_or_concat rest with rfl | ⟨rest2, y, hr⟩
    · left
      obtain ⟨h1, h2⟩ := List.append_inj' h (by simp)
      simp only [List.cons.injEq] at h2
      exact ⟨h1.symm, h2.1.symm, rfl⟩
    · right
      rw [List.concat_eq_append] at hr
      subst hr
      have h2 : xs ++ [x] = (q ++ s :: rest2) ++ [y] := by
        simpa using h
      obtain ⟨h3, h4⟩ := List.append_inj' h2 (by simp)
      simp only [List.cons.injEq] at h4
      exact ⟨rest2, by rw [h4.1], h3⟩
  · rintro (⟨rfl, rfl, rfl⟩ | ⟨rest2, rfl, rfl⟩)
    · simp
    · simp

theorem AscSpec_concat_match {hd : Elem} {d : Dirn} {p0 : BPath} {s0 : Dir}
    (h : MatchAt hd d p0 s0) (q : BPath) :
    AscSpec hd d (p0 ++ [s0]) q ↔ q = p0 := by
  constructor
  · rintro ⟨s, rest, heq, hmat, hlow⟩
    rcases (concat_eq_append_cons p0 s0 q s rest).mp heq with
      ⟨rfl, rfl, rfl⟩ | ⟨rest2, rfl, hp0⟩
    · rfl
    · exact absurd (by rw [hp0] at h; exact h) (hlow rest2 s0 [] rfl)
  · rintro rfl
    refine ⟨s0, [], rfl, h, ?_⟩
    intro a s2 b2 habs
    simp at habs

theorem AscSpec_concat_nomatch {hd : Elem} {d : Dirn} {p0 : BPath} {s0 : Dir}
    (h : ¬ MatchAt hd d p0 s0) (q : BPath) :
    AscSpec hd d (p0 ++ [s0]) q ↔ AscSpec hd d p0 q := by
  constructor
  · rintro ⟨s, rest, heq, hmat, hlow⟩
    rcases (concat_eq_append_cons p0 s0 q s rest).mp heq with
      ⟨rfl, rfl, rfl⟩ | ⟨rest2, rfl, hp0⟩
    · exact absurd hmat h
    · refine ⟨s, rest2, hp0, hmat, ?_⟩
      intro a s2 b2 hdec
      exact hlow a s2 (b2 ++ [s0]) (by rw [hdec]; simp)
  · rintro ⟨s, rest2, heq0, hmat, hlow0⟩
    refine ⟨s, rest2 ++ [s0], by rw [heq0]; simp, hmat, ?_⟩
    intro a s2 b2 hdec
    rcases (concat_eq_append_cons rest2 s0 a s2 b2).mp hdec with
      ⟨rfl, rfl, rfl⟩ | ⟨b3, rfl, hr2⟩
    · rw [← heq0]
      exact h
    · exact hlow0 a s2 b3 hr2

theorem ascendRev_iff (hd : Elem) (d : Dirn) :
    ∀ (rev : List Dir) (q : BPath),
      ascendRev hd d rev = some q ↔ AscSpec hd d rev.reverse q := by
  intro rev
  induction rev with
  | nil =>
      intro q
      simp only [ascendRev, List.reverse_nil]
      constructor
      · intro h; cases h
      · rintro ⟨s, rest, heq, _, _⟩
        exact absurd heq (by simp)
  | cons s0 rev ih =>
      intro q
      have hps : (s0 :: rev).reverse = rev.reverse ++ [s0] := by simp
      rw [hps]
      by_cases hm : MatchAt hd d rev.reverse s0
      · obtain ⟨bb, oo, paa, lcc, rcc, hsub, hmatch⟩ := hm
        have hstep : ascendRev hd d (s0 :: rev) = some rev.reverse := by
          simp only [ascendRev, hsub, hmatch, if_true]
        rw [hstep, AscSpec_concat_match ⟨bb, oo, paa, lcc, rcc, hsub, hmatch⟩ q]
        constructor
        · intro h; cases h; rfl
        · rintro rfl; rfl
      · have hstep : ascendRev hd d (s0 :: rev) = ascendRev hd d rev := by
          simp only [ascendRev]
          rcases hsub : subtreeAt hd rev.reverse with _ | e2
          · rfl
          · cases e2 with
            | leaf bb ss ii => rfl
            | node bb oo paa lcc rcc =>
                have : ascendMatch d oo s0 = false := by
                  by_contra hcon
                  exact hm ⟨bb, oo, paa, lcc, rcc, hsub,
                    by revert hcon; cases ascendMatch d oo s0 <;> simp⟩
                simp [this]
        rw [hstep, AscSpec_concat_nomatch hm q]
        exact ih q

theorem findCommonAncestor_iff (hd : Elem) (d : Dirn) (p q : BPath) :
    findCommonAncestor hd d p = some q ↔ AscSpec hd d p q := by
  have h := ascendRev_iff hd d p.reverse q
  rwa [List.reverse_reverse] at h

theorem entryChild_opp (d : Dirn) : entryChild (oppDirn d) = ascSide d := by
  cases d <;> rfl

theorem overlapStrict_symm (d : Dirn) (bA bB : Bounds) :
    overlapStrict (oppDirn d) bA bB = overlapStrict d bB bA := by
  rw [Bool.eq_iff_iff]
  cases d <;> simp [overlapStrict, oppDirn] <;> omega

theorem descOK_ends_leaf (d : Dirn) :
    ∀ (s : List Dir) (sub : Elem), descOK d sub s = true →
      ∃ bb ss ii, subtreeAt sub s = some (.leaf bb ss ii) := by
  intro s
  induction s with
  | nil =>
      intro sub hok
      cases sub with
      | leaf bb ss ii => exact ⟨bb, ss, ii, rfl⟩
      | node bb oo paa lcc rcc => simp [descOK] at hok
  | cons c s2 ih =>
      intro sub hok
      cases sub with
      | leaf bb ss ii => simp [descOK] at hok
      | node bb oo paa lcc rcc =>
          cases c with
          | left =>
              simp only [descOK, Bool.and_eq_true] at hok
              simpa [subtreeAt] using ih lcc hok.2
          | right =>
              simp only [descOK, Bool.and_eq_true] at hok
              simpa [subtreeAt] using ih rcc hok.2

theorem descOK_steps (d : Dirn) :
    ∀ (a : List Dir) (sub : Elem) (c : Dir) (b2 : List Dir),
      descOK d sub (a ++ c :: b2) = true →
      ∀ bb oo paa lcc rcc, subtreeAt sub a = some (.node bb oo paa lcc rcc) →
        allowedStep d oo c = true := by
  intro a
  induction a with
  | nil =>
      intro sub c b2 hok bb oo paa lcc rcc hsub
      simp only [subtreeAt, Option.some.injEq] at hsub
      subst hsub
      cases c <;> simp only [List.nil_append, descOK, Bool.and_eq_true] at hok <;>
        exact hok.1
  | cons c0 a ih =>
      intro sub c b2 hok bb oo paa lcc rcc hsub
      cases sub with
      | leaf b3 s3 i3 => simp [subtreeAt] at hsub
      | node b3 o3 pa3 lc3 rc3 =>
          cases c0 with
          | left =>
              simp only [List.cons_append, descOK, Bool.and_eq_true] at hok
              exact ih lc3 c b2 hok.2 bb oo paa lcc rcc (by simpa [subtreeAt] using hsub)
          | right =>
              simp only [List.cons_append, descOK, Bool.and_eq_true] at hok
              exact ih rc3 c b2 hok.2 bb oo paa lcc rcc (by simpa [subtreeAt] using hsub)

theorem descOK_of_steps (d : Dirn) :
    ∀ (s : List Dir) (sub : Elem) (bb : Bounds) (ss : Bool) (ii : Int),
      subtreeAt sub s = some (.leaf bb ss ii) →
      (∀ a c b2, s = a ++ c :: b2 →
        ∀ b3 o3 pa3 lc3 rc3, subtreeAt sub a = some (.node b3 o3 pa3 lc3 rc3) →
          allowedStep d o3 c = true) →
      descOK d sub s = true := by
  intro s
  induction s with
  | nil =>
      intro sub bb ss ii hsub _
      simp only [subtreeAt, Option.some.injEq] at hsub
      subst hsub
      simp [descOK]
  | cons c s2 ih =>
      intro sub bb ss ii hsub hsteps
      cases sub with
      | leaf b3 s3 i3 => simp [subtreeAt] at hsub
      | node b3 o3 pa3 lc3 rc3 =>
          have hstep0 : allowedStep d o3 c = true :=
            hsteps [] c s2 rfl b3 o3 pa3 lc3 rc3 rfl
          cases c with
          | left =>
              simp only [descOK, Bool.and_eq_true]
              refine ⟨hstep0, ih lc3 bb ss ii (by simpa [subtreeAt] using hsub) ?_⟩
              intro a c2 b4 hdec b5 o5 pa5 lc5 rc5 hsub5
              exact hsteps (.left :: a) c2 b4 (by rw [hdec]; rfl) b5 o5 pa5 lc5 rc5
                (by simpa [subtreeAt] using hsub5)
          | right =>
              simp only [descOK, Bool.and_eq_true]
              refine ⟨hstep0, ih rc3 bb ss ii (by simpa [subtreeAt] using hsub) ?_⟩
              intro a c2 b4 hdec b5 o5 pa5 lc5 rc5 hsub5
              exact hsteps (.right :: a) c2 b4 (by rw [hdec]; rfl) b5 o5 pa5 lc5 rc5
                (by simpa [subtreeAt] using hsub5)

theorem mem_dirNeighbors {hd : Elem} {p : BPath} {sb : Bounds} {ss : Bool} {si : Int}
    (d : Dirn) (hp : subtreeAt hd p = some (.leaf sb ss si)) (n : BPath) (ne : Elem) :
    (n, ne) ∈ dirNeighbors hd p d ↔
      ∃ q, AscSpec hd d p q ∧
        (∃ sub, subtreeAt hd (q ++ [entryChild d]) = some sub ∧
          ∃ s2, n = (q ++ [entryChild d]) ++ s2 ∧ descOK d sub s2 = true ∧
            subtreeAt sub s2 = some ne) ∧
        overlapStrict d sb ne.boundsOf = true := by
  rcases hanc : findCommonAncestor hd d p with _ | anc
  · simp only [dirNeighbors, hp, hanc, List.not_mem_nil, false_iff]
    rintro ⟨q, hasc, _, _⟩
    rw [← findCommonAncestor_iff, hanc] at hasc
    cases hasc
  · have huniq : ∀ q, AscSpec hd d p q → q = anc := by
      intro q hq
      rw [← findCommonAncestor_iff, hanc] at hq
      exact (Option.some.inj hq).symm
    have hancspec : AscSpec hd d p anc := (findCommonAncestor_iff hd d p anc).mp hanc
    rcases hsub : subtreeAt hd (anc ++ [entryChild d]) with _ | sub
    · simp only [dirNeighbors, hp, hanc, hsub, List.not_mem_nil, false_iff]
      rintro ⟨q, hasc, ⟨sub2, hsub2, _⟩, _⟩
      rw [huniq q hasc] at hsub2
      rw [hsub] at hsub2
      cases hsub2
    · simp only [dirNeighbors, hp, hanc, hsub]
      rw [List.mem_filter, mem_descendCollect]
      constructor
      · rintro ⟨⟨s2, hneq, hok, hx⟩, hov⟩
        exact ⟨anc, hancspec, ⟨sub, hsub, s2, hneq, hok, hx⟩,
          by simpa using hov⟩
      · rintro ⟨q, hasc, ⟨sub2, hsub2, s2, hneq, hok, hx⟩, hov⟩
        have hq := huniq q hasc
        subst hq
        rw [hsub] at hsub2
        have hsubeq := Option.some.inj hsub2
        subst hsubeq
        exact ⟨⟨s2, hneq, hok, hx⟩, by simpa using hov⟩

/-- The central combinatorial fact behind portal generation: although the
specification does not guarantee it, the directional neighbor relations of
the source ARE symmetric — a leaf collected by the `d`-descent from the
common ancestor of another leaf collects that other leaf by its own
`oppDirn d` query. -/
theorem dirNeighbors_symm {hd : Elem} {p1 p2 : BPath} {b1 b2 : Bounds}
    {so1 so2 : Bool} {i1 i2 : Int} (d : Dirn)
    (hp1 : subtreeAt hd p1 = some (.leaf b1 so1 i1))
    (hp2 : subtreeAt hd p2 = some (.leaf b2 so2 i2))
    (x : Elem) (hmem : (p1, x) ∈ dirNeighbors hd p2 d) :
    (p2, Elem.leaf b2 so2 i2) ∈ dirNeighbors hd p1 (oppDirn d) := by
  rw [mem_dirNeighbors d hp2 p1 x] at hmem
  obtain ⟨q, hasc, ⟨sub, hsubq, s2, hp1eq, hok, hx⟩, hov⟩ := hmem
  have hx2 : subtreeAt hd p1 = some x := by
    rw [hp1eq, subtreeAt_append, hsubq]
    simpa using hx
  have hxx : x = Elem.leaf b1 so1 i1 := by
    rw [hx2] at hp1
    exact Option.some.inj hp1
  subst hxx
  obtain ⟨s, rest, hp2eq, hmat, hlow⟩ := hasc
  obtain ⟨bb, oo, paa, lcc, rcc, hnodeq, hmatch⟩ := hmat
  rw [ascendMatch_iff] at hmatch
  obtain ⟨rfl, rfl⟩ := hmatch
  have hp1eq2 : p1 = q ++ entryChild d :: s2 := by
    rw [hp1eq]
    simp
  rw [mem_dirNeighbors (oppDirn d) hp1 p2 (Elem.leaf b2 so2 i2)]
  refine ⟨q, ?_, ?_, ?_⟩
  · -- the opposite-direction ascent from p1 stops at the same ancestor q
    refine ⟨entryChild d, s2, hp1eq2, ?_, ?_⟩
    · refine ⟨bb, parOrient d, paa, lcc, rcc, hnodeq, ?_⟩
      rw [ascendMatch_iff, parOrient_opp, ascSide_opp, entryChild_eq]
      exact ⟨rfl, rfl⟩
    · intro a c b3 hdec
      rintro ⟨b5, o5, pa5, lc5, rc5, hsub5, hmatch5⟩
      rw [ascendMatch_iff, parOrient_opp, ascSide_opp] at hmatch5
      obtain ⟨rfl, rfl⟩ := hmatch5
      -- the node at q ++ entryChild d :: a sits inside sub along a
      have hsub6 : subtreeAt sub a = some (.node b5 (parOrient d) pa5 lc5 rc5) := by
        have hcomp : subtreeAt hd ((q ++ [entryChild d]) ++ a) =
            (subtreeAt hd (q ++ [entryChild d])).bind (fun z => subtreeAt z a) :=
          subtreeAt_append _ hd a
        rw [hsubq] at hcomp
        simp only [Option.some_bind] at hcomp
        rw [← hcomp]
        rw [← hsub5]
        congr 1
        simp
      have hstep := descOK_steps d a sub (otherDir (ascSide d)) b3
        (by rw [← hdec]; exact hok) b5 (parOrient d) pa5 lc5 rc5 hsub6
      rw [allowedStep_iff] at hstep
      exact otherDir_ne (ascSide d) (hstep rfl)
  · -- p2 is collected by the descent from the ancestor's other child
    have hp2eq2 : p2 = (q ++ [ascSide d]) ++ rest := by
      rw [hp2eq]
      simp
    have hcomp : subtreeAt hd ((q ++ [ascSide d]) ++ rest) =
        (subtreeAt hd (q ++ [ascSide d])).bind (fun z => subtreeAt z rest) :=
      subtreeAt_append _ hd rest
    rw [← hp2eq2, hp2] at hcomp
    rcases hsub2 : subtreeAt hd (q ++ [ascSide d]) with _ | sub2
    · rw [hsub2] at hcomp
      simp at hcomp
    · rw [hsub2] at hcomp
      simp only [Option.some_bind] at hcomp
      refine ⟨sub2, by rw [entryChild_opp]; exact hsub2, rest,
        by rw [entryChild_opp]; exact hp2eq2, ?_, hcomp.symm⟩
      refine descOK_of_steps (oppDirn d) rest sub2 b2 so2 i2 hcomp.symm ?_
      intro a c b3 hdec b5 o5 pa5 lc5 rc5 hsub5
      rw [allowedStep_iff, parOrient_opp, ascSide_opp]
      intro ho5
      subst ho5
      -- the no-lower-match condition of the original ascent forbids ascSide d here
      have hnm := hlow a c b3 hdec
      rcases dir_eq_or_other (ascSide d) c with hc | hc
      · exfalso
        apply hnm
        refine ⟨b5, parOrient d, pa5, lc5, rc5, ?_, ?_⟩
        · have hcomp2 : subtreeAt hd ((q ++ [ascSide d]) ++ a) =
              (subtreeAt hd (q ++ [ascSide d])).bind (fun z => subtreeAt z a) :=
            subtreeAt_append _ hd a
          rw [hsub2] at hcomp2
          simp only [Option.some_bind] at hcomp2
          have : q ++ ascSide d :: a = (q ++ [ascSide d]) ++ a := by simp
          rw [this, hcomp2, hsub5]
        · rw [ascendMatch_iff]
          exact ⟨rfl, hc⟩
      · exact hc
  · rw [overlapStrict_symm]
    simpa using hov

theorem not_self_dirNeighbor {hd : Elem} {p : BPath} {sb : Bounds} {ss : Bool} {si : Int}
    (d : Dirn) (hp : subtreeAt hd p = some (.leaf sb ss si)) (x : Elem) :
    (p, x) ∈ dirNeighbors hd p d → False := by
  intro h
  rw [mem_dirNeighbors d hp p x] at h
  obtain ⟨q, hasc, ⟨sub, hsubq, s2, hpeq, hok, hx⟩, _⟩ := h
  obtain ⟨s, rest, hpeq2, hmat, _⟩ := hasc
  obtain ⟨bb, oo, paa, lcc, rcc, hnodeq, hmatch⟩ := hmat
  rw [ascendMatch_iff] at hmatch
  obtain ⟨rfl, rfl⟩ := hmatch
  have hpeq3 : p = q ++ entryChild d :: s2 := by
    rw [hpeq]
    simp
  rw [hpeq3] at hpeq2
  have hcons := List.append_cancel_left hpeq2
  have hhead : entryChild d = ascSide d := (List.cons.inj hcons).1
  rw [entryChild_eq] at hhead
  exact otherDir_ne (ascSide d) hhead

theorem dirNeighbors_elem {hd : Elem} {p : BPath} {sb : Bounds} {ss : Bool} {si : Int}
    (d : Dirn) (hp : subtreeAt hd p = some (.leaf sb ss si)) {n : BPath} {ne : Elem}
    (h : (n, ne) ∈ dirNeighbors hd p d) :
    subtreeAt hd n = some ne ∧ ∃ bb sb2 ib, ne = Elem.leaf bb sb2 ib := by
  rw [mem_dirNeighbors d hp n ne] at h
  obtain ⟨q, _, ⟨sub, hsubq, s2, hneq, hok, hx⟩, _⟩ := h
  constructor
  · rw [hneq, subtreeAt_append, hsubq]
    simpa using hx
  · obtain ⟨bb, ss2, ii, hleaf⟩ := descOK_ends_leaf d s2 sub hok
    rw [hleaf] at hx
    exact ⟨bb, ss2, ii, (Option.some.inj hx).symm⟩

theorem mem_iterNeighbors {hd : Elem} {p : BPath} {n : BPath} {ne : Elem} :
    (n, ne) ∈ iterNeighbors hd p ↔ ∃ d, (n, ne) ∈ dirNeighbors hd p d := by
  simp only [iterNeighbors, List.mem_append]
  constructor
  · rintro (((h | h) | h) | h)
    exacts [⟨.L, h⟩, ⟨.T, h⟩, ⟨.R, h⟩, ⟨.B, h⟩]
  · rintro ⟨d, h⟩
    cases d
    exacts [Or.inl (Or.inl (Or.inl h)), Or.inl (Or.inr h),
      Or.inl (Or.inl (Or.inr h)), Or.inr h]

theorem mem_visleafPathsFrom : ∀ (t : Elem) (base q : BPath) (e : Elem),
    (q, e) ∈ visleafPathsFrom base t ↔
      ∃ s, q = base ++ s ∧ subtreeAt t s = some e ∧ e.isLeafE = true ∧
        e.isSolid = false := by
  intro t
  induction t with
  | leaf b so i =>
      intro base q e
      cases so with
      | true =>
          simp only [visleafPathsFrom, if_pos, List.not_mem_nil, false_iff]
          rintro ⟨s2, rfl, hsub, hleaf, hsolid⟩
          cases s2 with
          | nil =>
              simp only [subtreeAt, Option.some.injEq] at hsub
              rw [← hsub] at hsolid
              simp [Elem.isSolid] at hsolid
          | cons c s3 => simp [subtreeAt] at hsub
      | false =>
          simp only [visleafPathsFrom, Bool.false_eq_true, if_false,
            List.mem_singleton, Prod.mk.injEq]
          constructor
          · rintro ⟨rfl, rfl⟩
            exact ⟨[], by simp, by simp [subtreeAt], by simp [Elem.isLeafE],
              by simp [Elem.isSolid]⟩
          · rintro ⟨s2, rfl, hsub, hleaf, hsolid⟩
            cases s2 with
            | nil =>
                simp only [subtreeAt, Option.some.injEq] at hsub
                simp [hsub]
            | cons c s3 => simp [subtreeAt] at hsub
  | node b o pa lc rc ihl ihr =>
      intro base q e
      simp only [visleafPathsFrom, List.mem_append]
      rw [ihr, ihl]
      constructor
      · rintro (⟨s2, rfl, hsub, hleaf, hsolid⟩ | ⟨s2, rfl, hsub, hleaf, hsolid⟩)
        · exact ⟨.right :: s2, by simp, by simpa [subtreeAt] using hsub, hleaf, hsolid⟩
        · exact ⟨.left :: s2, by simp, by simpa [subtreeAt] using hsub, hleaf, hsolid⟩
      · rintro ⟨s2, rfl, hsub, hleaf, hsolid⟩
        cases s2 with
        | nil =>
            simp only [subtreeAt, Option.some.injEq] at hsub
            rw [← hsub] at hleaf
            simp [Elem.isLeafE] at hleaf
        | cons c s3 =>
            cases c
            · right
              exact ⟨s3, by simp, by simpa [subtreeAt] using hsub, hleaf, hsolid⟩
            · left
              exact ⟨s3, by simp, by simpa [subtreeAt] using hsub, hleaf, hsolid⟩

theorem mkPortal_succeeds {hd : Elem} {v n : BPath} {b1 : Bounds} {i1 : Int} {ne : Elem}
    (hv : subtreeAt hd v = some (.leaf b1 false i1))
    (hmem : (n, ne) ∈ iterNeighbors hd v) (hns : ne.isSolid = false) :
    ∃ port, mkPortal hd v n (Elem.leaf b1 false i1) ne = some port ∧
      port.leaf1 = v ∧ port.leaf2 = n := by
  obtain ⟨d, hdir⟩ := mem_iterNeighbors.mp hmem
  obtain ⟨hnsub, bb, sb2, ib, rfl⟩ := dirNeighbors_elem d hv hdir
  have hsb2 : sb2 = false := by simpa [Elem.isSolid] using hns
  subst hsb2
  have hsym := dirNeighbors_symm d hnsub hv (Elem.leaf bb false ib) hdir
  have hrel : isDirNeighborOf hd v n (oppDirn d) = true := by
    simp only [isDirNeighborOf, List.any_eq_true]
    exact ⟨(v, Elem.leaf b1 false i1), hsym, by simp⟩
  have hrel4 : isDirNeighborOf hd v n .L = true ∨ isDirNeighborOf hd v n .T = true ∨
      isDirNeighborOf hd v n .R = true ∨ isDirNeighborOf hd v n .B = true := by
    cases d <;> simp only [oppDirn] at hrel
    exacts [Or.inr (Or.inr (Or.inl hrel)), Or.inl hrel,
      Or.inr (Or.inr (Or.inr hrel)), Or.inr (Or.inl hrel)]
  simp only [mkPortal, Elem.isSolid, Bool.or_self, Bool.false_eq_true, if_false]
  split_ifs with hL hT hR hB
  · exact ⟨_, rfl, rfl, rfl⟩
  · exact ⟨_, rfl, rfl, rfl⟩
  · exact ⟨_, rfl, rfl, rfl⟩
  · exact ⟨_, rfl, rfl, rfl⟩
  · rcases hrel4 with h | h | h | h
    · exact absurd h (by simp [hL])
    · exact absurd h (by simp [hT])
    · exact absurd h (by simp [hR])
    · exact absurd h (by simp [hB])

theorem isLeafE_shape {e : Elem} (h : e.isLeafE = true) :
    ∃ bb ss ii, e = .leaf bb ss ii := by
  cases e with
  | leaf bb ss ii => exact ⟨bb, ss, ii, rfl⟩
  | node bb oo paa lcc rcc => simp [Elem.isLeafE] at h

theorem pairSeen_iff (processed : List (BPath × BPath)) (a b : BPath) :
    pairSeen processed a b = true ↔ s(a, b) ∈ pairsOf processed := by
  simp only [pairSeen, List.any_eq_true, Bool.or_eq_true, Bool.and_eq_true,
    decide_eq_true_eq, pairsOf, List.mem_toFinset, List.mem_map]
  constructor
  · rintro ⟨q, hq, (⟨h1, h2⟩ | ⟨h1, h2⟩)⟩
    · exact ⟨q, hq, by rw [h1, h2]⟩
    · exact ⟨q, hq, by rw [h1, h2]; exact Sym2.eq_swap⟩
  · rintro ⟨q, hq, heq⟩
    rcases Sym2.eq_iff.mp heq with ⟨h1, h2⟩ | ⟨h1, h2⟩
    · exact ⟨q, hq, Or.inl ⟨h1, h2⟩⟩
    · exact ⟨q, hq, Or.inr ⟨h1, h2⟩⟩

theorem mem_visleafFinset {hd : Elem} {v : BPath} :
    v ∈ visleafFinset hd ↔ ∃ bb ii, subtreeAt hd v = some (.leaf bb false ii) := by
  simp only [visleafFinset, List.mem_toFinset, List.mem_map]
  constructor
  · rintro ⟨⟨p1, p2⟩, hpe, rfl⟩
    rw [mem_visleafPathsFrom] at hpe
    obtain ⟨s, hs, hsub, hleaf, hsolid⟩ := hpe
    obtain ⟨bb, ss, ii, rfl⟩ := isLeafE_shape hleaf
    have hss : ss = false := by simpa [Elem.isSolid] using hsolid
    subst hss
    simp only [List.nil_append] at hs
    subst hs
    exact ⟨bb, ii, hsub⟩
  · rintro ⟨bb, ii, hsub⟩
    refine ⟨(v, Elem.leaf bb false ii), ?_, rfl⟩
    rw [mem_visleafPathsFrom]
    exact ⟨v, by simp, hsub, by simp [Elem.isLeafE], by simp [Elem.isSolid]⟩

theorem mem_addPortalTo (m : BPath → List Portal) (key : BPath) (port pt : Portal)
    (q : BPath) :
    pt ∈ addPortalTo m key port q ↔ (q = key ∧ pt = port) ∨ pt ∈ m q := by
  unfold addPortalTo
  by_cases h : q = key <;> simp [h]

theorem genInner_spec {hd : Elem} {v : BPath} {vb : Bounds} {vi : Int}
    (hv : subtreeAt hd v = some (.leaf vb false vi)) :
    ∀ (ns : List (BPath × Elem)) (processed : List (BPath × BPath)) (acc : List Portal)
      (m : BPath → List Portal),
      (∀ pe ∈ ns, pe ∈ iterNeighbors hd v) →
      acc.length = (pairsOf processed).card →
      (∀ port q, port ∈ m q ↔ port ∈ acc ∧ (q = port.leaf1 ∨ q = port.leaf2)) →
      ∃ processed2 acc2 m2,
        genInner hd v (.leaf vb false vi) ns processed acc m =
          some (processed2, acc2, m2) ∧
        acc2.length = (pairsOf processed2).card ∧
        (∀ port q, port ∈ m2 q ↔ port ∈ acc2 ∧ (q = port.leaf1 ∨ q = port.leaf2)) ∧
        (∀ x, x ∈ pairsOf processed2 ↔ x ∈ pairsOf processed ∨
          ∃ pe ∈ ns, pe.2.isSolid = false ∧ x = s(v, pe.1)) := by
  intro ns
  induction ns with
  | nil =>
      intro processed acc m _ ha hb
      exact ⟨processed, acc, m, rfl, ha, hb, fun x => by simp⟩
  | cons pn ns ih =>
      obtain ⟨n, ne⟩ := pn
      intro processed acc m hns ha hb
      by_cases hsolid : ne.isSolid = true
      · have hskip : genInner hd v (.leaf vb false vi) ((n, ne) :: ns) processed acc m =
            genInner hd v (.leaf vb false vi) ns processed acc m := by
          simp [genInner, hsolid]
        obtain ⟨p2, a2, m2, heq, h1, h2, h3⟩ :=
          ih processed acc m (fun pe h => hns pe (List.mem_cons_of_mem _ h)) ha hb
        refine ⟨p2, a2, m2, by rw [hskip]; exact heq, h1, h2, ?_⟩
        intro x
        rw [h3 x]
        constructor
        · rintro (h | ⟨pe, hpe, hs, hx⟩)
          · exact Or.inl h
          · exact Or.inr ⟨pe, List.mem_cons_of_mem _ hpe, hs, hx⟩
        · rintro (h | ⟨pe, hpe, hs, hx⟩)
          · exact Or.inl h
          · rcases List.mem_cons.mp hpe with rfl | hpe2
            · rw [hsolid] at hs; cases hs
            · exact Or.inr ⟨pe, hpe2, hs, hx⟩
      · have hsolid2 : ne.isSolid = false := by
          revert hsolid; cases ne.isSolid <;> simp
        by_cases hseen : pairSeen processed v n = true
        · have hskip : genInner hd v (.leaf vb false vi) ((n, ne) :: ns) processed acc m =
              genInner hd v (.leaf vb false vi) ns processed acc m := by
            simp [genInner, hsolid2, hseen]
          obtain ⟨p2, a2, m2, heq, h1, h2, h3⟩ :=
            ih processed acc m (fun pe h => hns pe (List.mem_cons_of_mem _ h)) ha hb
          refine ⟨p2, a2, m2, by rw [hskip]; exact heq, h1, h2, ?_⟩
          intro x
          rw [h3 x]
          constructor
          · rintro (h | ⟨pe, hpe, hs, hx⟩)
            · exact Or.inl h
            · exact Or.inr ⟨pe, List.mem_cons_of_mem _ hpe, hs, hx⟩
          · rintro (h | ⟨pe, hpe, hs, hx⟩)
            · exact Or.inl h
            · rcases List.mem_cons.mp hpe with heq2 | hpe2
              · left
                have hn : pe.1 = n := by rw [heq2]
                rw [hx, hn]
                exact (pairSeen_iff processed v n).mp hseen
              · exact Or.inr ⟨pe, hpe2, hs, hx⟩
        · obtain ⟨port, hport, hpl1, hpl2⟩ := mkPortal_succeeds hv
            (hns (n, ne) (List.mem_cons_self _ _)) hsolid2
          have hstep : genInner hd v (.leaf vb false vi) ((n, ne) :: ns) processed acc m =
              genInner hd v (.leaf vb false vi) ns ((v, n) :: processed) (port :: acc)
                (addPortalTo (addPortalTo m v port) n port) := by
            simp [genInner, hsolid2, hseen, hport]
          have hnotmem : s(v, n) ∉ pairsOf processed := by
            intro hcon
            exact hseen ((pairSeen_iff processed v n).mpr hcon)
          have hpairs2 : pairsOf ((v, n) :: processed) =
              insert s(v, n) (pairsOf processed) := by
            simp [pairsOf]
          have ha2 : (port :: acc).length = (pairsOf ((v, n) :: processed)).card := by
            rw [hpairs2, Finset.card_insert_of_not_mem hnotmem, List.length_cons, ha]
          have hb2 : ∀ pt q, pt ∈ addPortalTo (addPortalTo m v port) n port q ↔
              pt ∈ (port :: acc) ∧ (q = pt.leaf1 ∨ q = pt.leaf2) := by
            intro pt q
            rw [mem_addPortalTo, mem_addPortalTo, hb pt q, List.mem_cons]
            constructor
            · rintro (⟨rfl, rfl⟩ | ⟨rfl, rfl⟩ | ⟨hin, hq⟩)
              · exact ⟨Or.inl rfl, Or.inr hpl2.symm⟩
              · exact ⟨Or.inl rfl, Or.inl hpl1.symm⟩
              · exact ⟨Or.inr hin, hq⟩
            · rintro ⟨(rfl | hin), hq⟩
              · rcases hq with hq | hq
                · exact Or.inr (Or.inl ⟨by rw [hq, hpl1], rfl⟩)
                · exact Or.inl ⟨by rw [hq, hpl2], rfl⟩
              · exact Or.inr (Or.inr ⟨hin, hq⟩)
          obtain ⟨p2, a2, m2, heq, h1, h2, h3⟩ :=
            ih ((v, n) :: processed) (port :: acc)
              (addPortalTo (addPortalTo m v port) n port)
              (fun pe h => hns pe (List.mem_cons_of_mem _ h)) ha2 hb2
          refine ⟨p2, a2, m2, by rw [hstep]; exact heq, h1, h2, ?_⟩
          intro x
          rw [h3 x, hpairs2]
          simp only [Finset.mem_insert]
          constructor
          · rintro ((rfl | h) | ⟨pe, hpe, hs, hx⟩)
            · exact Or.inr ⟨(n, ne), List.mem_cons_self _ _, hsolid2, rfl⟩
            · exact Or.inl h
            · exact Or.inr ⟨pe, List.mem_cons_of_mem _ hpe, hs, hx⟩
          · rintro (h | ⟨pe, hpe, hs, hx⟩)
            · exact Or.inl (Or.inr h)
            · rcases List.mem_cons.mp hpe with heq2 | hpe2
              · left
                left
                have hn : pe.1 = n := by rw [heq2]
                rw [hx, hn]
              · exact Or.inr ⟨pe, hpe2, hs, hx⟩

theorem genOuter_spec {hd : Elem} :
    ∀ (vs : List (BPath × Elem)) (processed : List (BPath × BPath)) (acc : List Portal)
      (m : BPath → List Portal),
      (∀ pe ∈ vs, ∃ bb ii, pe.2 = Elem.leaf bb false ii ∧
        subtreeAt hd pe.1 = some pe.2) →
      acc.length = (pairsOf processed).card →
      (∀ port q, port ∈ m q ↔ port ∈ acc ∧ (q = port.leaf1 ∨ q = port.leaf2)) →
      ∃ acc2 m2 processed2,
        genOuter hd vs processed acc m = some (acc2, m2) ∧
        acc2.length = (pairsOf processed2).card ∧
        (∀ port q, port ∈ m2 q ↔ port ∈ acc2 ∧ (q = port.leaf1 ∨ q = port.leaf2)) ∧
        (∀ x, x ∈ pairsOf processed2 ↔ x ∈ pairsOf processed ∨
          ∃ pe ∈ vs, ∃ pn ∈ iterNeighbors hd pe.1,
            pn.2.isSolid = false ∧ x = s(pe.1, pn.1)) := by
  intro vs
  induction vs with
  | nil =>
      intro processed acc m _ ha hb
      exact ⟨acc, m, processed, rfl, ha, hb, fun x => by simp⟩
  | cons pv vs ih =>
      obtain ⟨v, ve⟩ := pv
      intro processed acc m hvs ha hb
      obtain ⟨vb, vi, hve, hsubv⟩ := hvs (v, ve) (List.mem_cons_self _ _)
      simp only at hve
      subst hve
      simp only at hsubv
      obtain ⟨p2, a2, m2, hinner, h1, h2, h3⟩ :=
        genInner_spec hsubv (iterNeighbors hd v) processed acc m (fun pe h => h) ha hb
      obtain ⟨a3, m3, p3, houter, h4, h5, h6⟩ :=
        ih p2 a2 m2 (fun pe h => hvs pe (List.mem_cons_of_mem _ h)) h1 h2
      refine ⟨a3, m3, p3, ?_, h4, h5, ?_⟩
      · simp [genOuter, hinner, houter]
      · intro x
        rw [h6 x]
        constructor
        · rintro (h | ⟨pe, hpe, pn, hpn, hs, hx⟩)
          · rcases (h3 x).mp h with h7 | ⟨pn, hpn, hs, hx⟩
            · exact Or.inl h7
            · exact Or.inr ⟨(v, Elem.leaf vb false vi), List.mem_cons_self _ _,
                pn, hpn, hs, hx⟩
          · exact Or.inr ⟨pe, List.mem_cons_of_mem _ hpe, pn, hpn, hs, hx⟩
        · rintro (h | ⟨pe, hpe, pn, hpn, hs, hx⟩)
          · exact Or.inl ((h3 x).mpr (Or.inl h))
          · rcases List.mem_cons.mp hpe with heq2 | hpe2
            · left
              apply (h3 x).mpr
              right
              refine ⟨pn, ?_, hs, ?_⟩
              · have : pe.1 = v := by rw [heq2]
                rw [← this]
                exact hpn
              · have : pe.1 = v := by rw [heq2]
                rw [hx, this]
            · exact Or.inr ⟨pe, hpe2, pn, hpn, hs, hx⟩

theorem mem_claimPairs {hd : Elem} {x : Sym2 BPath} :
    x ∈ claimPairs hd ↔ ∃ a b, a ∈ visleafFinset hd ∧ b ∈ visleafFinset hd ∧
      a ≠ b ∧ (∃ ae, (a, ae) ∈ iterNeighbors hd b) ∧ x = s(a, b) := by
  simp only [claimPairs, Finset.mem_image, Finset.mem_filter, Finset.mem_product]
  constructor
  · rintro ⟨⟨a, b⟩, ⟨⟨hav, hbv⟩, hne, hmem⟩, rfl⟩
    obtain ⟨⟨pa1, pa2⟩, hpe, hfst⟩ := List.mem_map.mp hmem
    simp only at hfst
    subst hfst
    exact ⟨pa1, b, hav, hbv, hne, ⟨pa2, hpe⟩, rfl⟩
  · rintro ⟨a, b, hav, hbv, hne, ⟨ae, hae⟩, rfl⟩
    exact ⟨(a, b), ⟨⟨hav, hbv⟩, hne, List.mem_map.mpr ⟨(a, ae), hae, rfl⟩⟩, rfl⟩

/-- C5: `generate_portals()` succeeds on every tree; the number of portals
in the rebuilt tree portal set equals the number of unordered pairs
`{V, N}` of distinct visleaves with `V ∈ iterNeighbors(N)`; and every
generated portal is a member of the portal sets of exactly its two leaves
(`leaf1.portals` and `leaf2.portals`) and of no other leaf's portal set. -/
theorem C5_generate_portals (tr : BSPTree) :
    ∃ tr2 m, generatePortals tr = some (tr2, m) ∧
      tr2.portals.length = (claimPairs tr.head).card ∧
      tr2.maxWidth = tr.maxWidth ∧ tr2.maxHeight = tr.maxHeight ∧
      ∀ port ∈ tr2.portals,
        port ∈ m port.leaf1 ∧ port ∈ m port.leaf2 ∧
        ∀ q, port ∈ m q → q = port.leaf1 ∨ q = port.leaf2 := by
  have hvs : ∀ pe ∈ visleafPathsFrom [] tr.head, ∃ bb ii,
      pe.2 = Elem.leaf bb false ii ∧ subtreeAt tr.head pe.1 = some pe.2 := by
    rintro ⟨p1, p2⟩ hpe
    rw [mem_visleafPathsFrom] at hpe
    obtain ⟨s, hs, hsub, hleaf, hsolid⟩ := hpe
    obtain ⟨bb, ss, ii, rfl⟩ := isLeafE_shape hleaf
    have hss : ss = false := by simpa [Elem.isSolid] using hsolid
    subst hss
    simp only [List.nil_append] at hs
    subst hs
    exact ⟨bb, ii, rfl, hsub⟩
  obtain ⟨a2, m2, p2, houter, h1, h2, h3⟩ :=
    genOuter_spec (visleafPathsFrom [] tr.head) [] [] (fun _ => []) hvs
      (by simp [pairsOf]) (by intro port q; simp)
  refine ⟨{ tr with portals := a2 }, m2, ?_, ?_, rfl, rfl, ?_⟩
  · simp [generatePortals, houter]
  · show a2.length = (claimPairs tr.head).card
    rw [h1]
    congr 1
    apply Finset.ext
    intro x
    rw [h3 x]
    simp only [pairsOf, List.map_nil, List.toFinset_nil, Finset.not_mem_empty,
      false_or]
    constructor
    · rintro ⟨⟨v, ve⟩, hpe, ⟨n, ne⟩, hpn, hnsolid, rfl⟩
      obtain ⟨vb, vi, hve, hsubv⟩ := hvs (v, ve) hpe
      simp only at hve hsubv hnsolid hpn ⊢
      subst hve
      obtain ⟨d, hdir⟩ := mem_iterNeighbors.mp hpn
      obtain ⟨hnsub, bb, sb2, ib, rfl⟩ := dirNeighbors_elem d hsubv hdir
      have hsb2 : sb2 = false := by simpa [Elem.isSolid] using hnsolid
      subst hsb2
      rw [mem_claimPairs]
      refine ⟨n, v, ?_, ?_, ?_, ⟨Elem.leaf bb false ib, hpn⟩, Sym2.eq_swap⟩
      · exact mem_visleafFinset.mpr ⟨bb, ib, hnsub⟩
      · exact mem_visleafFinset.mpr ⟨vb, vi, hsubv⟩
      · intro hcon
        subst hcon
        exact not_self_dirNeighbor d hsubv (Elem.leaf bb false ib) hdir
    · intro hx
      rw [mem_claimPairs] at hx
      obtain ⟨a, b, hav, hbv, hne, ⟨ae, hae⟩, rfl⟩ := hx
      obtain ⟨bb2, ii2, hbsub⟩ := mem_visleafFinset.mp hbv
      obtain ⟨ba, ia, hasub⟩ := mem_visleafFinset.mp hav
      obtain ⟨d, hdir⟩ := mem_iterNeighbors.mp hae
      obtain ⟨hasub2, bb3, sb3, ib3, rfl⟩ := dirNeighbors_elem d hbsub hdir
      have hae2 : Elem.leaf bb3 sb3 ib3 = Elem.leaf ba false ia :=
        Option.some.inj (hasub2.symm.trans hasub)
      have hsb3 : sb3 = false := by
        have := (Elem.leaf.injEq _ _ _ _ _ _).mp hae2
        exact this.2.1
      refine ⟨(b, Elem.leaf bb2 false ii2), ?_, (a, Elem.leaf bb3 sb3 ib3), hae, ?_, ?_⟩
      · rw [mem_visleafPathsFrom]
        exact ⟨b, by simp, hbsub, by simp [Elem.isLeafE], by simp [Elem.isSolid]⟩
      · simp [Elem.isSolid, hsb3]
      · simp only
        exact Sym2.eq_swap
  · intro port hport
    exact ⟨(h2 port port.leaf1).mpr ⟨hport, Or.inl rfl⟩,
      (h2 port port.leaf2).mpr ⟨hport, Or.inr rfl⟩,
      fun q hq => ((h2 port q).mp hq).2⟩
